import Mathlib

/-!
Verification of the crawl-extract-dedup pipeline of the discursos_milei
repository (src/collect_and_update_data.py and src/monitor_website.py).

set_option autoImplicit false

Strings manipulated by the Python code are modelled as `List Char`.
Fallible Python code is modelled with `Except PyErr`; a raised exception
that the source does not catch shows up as `.error`.
-/

/-- PyErr models the Python exception classes that the scripts can raise
while processing already-fetched data. -/
inductive PyErr where
  | attributeError : PyErr
  | valueError : PyErr
deriving DecidableEq, Repr

/-- isWsC models the ASCII part of the whitespace set used by Python
str.split with no arguments. -/
def isWsC (c : Char) : Bool :=
  c.toNat = 32 || c.toNat = 9 || c.toNat = 10 || c.toNat = 13 ||
    c.toNat = 11 || c.toNat = 12

/-- isDigitC is true on the ASCII digits 0-9. -/
def isDigitC (c : Char) : Bool :=
  48 ≤ c.toNat && c.toNat ≤ 57

/-- isLowerAlphaC is true on the ASCII lowercase letters a-z (the Spanish
month names in the source are all lowercase ASCII). -/
def isLowerAlphaC (c : Char) : Bool :=
  97 ≤ c.toNat && c.toNat ≤ 122

/-- digitVal is the numeric value of an ASCII digit character. -/
def digitVal (c : Char) : Nat := c.toNat - 48

/-- splitGo is the worker of `pySplitWs`; `acc` holds the characters of the
token currently being read, in reverse order. -/
def splitGo (acc : List Char) : List Char → List (List Char)
  | [] => if acc.isEmpty then [] else [acc.reverse]
  | c :: s =>
    if isWsC c then
      if acc.isEmpty then splitGo [] s else acc.reverse :: splitGo [] s
    else
      splitGo (c :: acc) s

/-- pySplitWs models Python str.split() with no argument: split on runs of
whitespace, producing no empty tokens. -/
def pySplitWs (s : List Char) : List (List Char) := splitGo [] s

/-- joinSp models " ".join(tokens). -/
def joinSp : List (List Char) → List Char
  | [] => []
  | [t] => t
  | t :: ts => t ++ ' ' :: joinSp ts

/-- pyReplaceGo is the worker of `pyReplace`.  The numeric argument counts
characters still to be skipped because they belong to an occurrence that
has already been replaced (Python replacement is left-to-right and
non-overlapping). -/
def pyReplaceGo (old new : List Char) : Nat → List Char → List Char
  | _, [] => []
  | 0, c :: s =>
    if old.isPrefixOf (c :: s) then
      new ++ pyReplaceGo old new (old.length - 1) s
    else
      c :: pyReplaceGo old new 0 s
  | k + 1, _ :: s => pyReplaceGo old new k s

/-- pyReplace models Python s.replace(old, new) for nonempty `old` (every
pattern replaced by the scripts is a nonempty literal); for empty `old` it
returns the string unchanged. -/
def pyReplace (s old new : List Char) : List Char :=
  if old.isEmpty then s else pyReplaceGo old new 0 s

/-- lowerL models Python str.lower() on ASCII text (the keyword filter of
the scripts only meets ASCII hrefs). -/
def lowerL (s : List Char) : List Char := s.map Char.toLower

/-- containsSub models the Python substring test `pat in s`. -/
def containsSub (pat s : List Char) : Bool :=
  s.tails.any fun t => pat.isPrefixOf t

/-- deSp is the literal " de " that separates the fields of the raw date. -/
def deSp : List Char := [' ', 'd', 'e', ' ']

/-- month_map is the fixed Spanish month-name table of the source, in its
insertion order (enero .. diciembre). -/
def month_map : List (List Char × List Char) :=
  [("enero".toList, "01".toList),
   ("febrero".toList, "02".toList),
   ("marzo".toList, "03".toList),
   ("abril".toList, "04".toList),
   ("mayo".toList, "05".toList),
   ("junio".toList, "06".toList),
   ("julio".toList, "07".toList),
   ("agosto".toList, "08".toList),
   ("septiembre".toList, "09".toList),
   ("octubre".toList, "10".toList),
   ("noviembre".toList, "11".toList),
   ("diciembre".toList, "12".toList)]

/-- monthSubst performs the loop `for month_name, month_number in
month_map.items(): date = date.replace(month_name, month_number)`. -/
def monthSubst (s : List Char) : List Char :=
  month_map.foldl (fun acc p => pyReplace acc p.1 p.2) s

/-- stripCRLF models `.replace("\r", "").replace("\n", "")`. -/
def stripCRLF (s : List Char) : List Char :=
  pyReplace (pyReplace s ['\r'] []) ['\n'] []

/-- dropDow models `" ".join(date.split()[1:])`: drop the first
whitespace-separated token (the day-of-week name). -/
def dropDow (s : List Char) : List Char := joinSp ((pySplitWs s).drop 1)

/-- parseDayTok models the regular expression CPython strptime compiles for
the %d directive (two digits in 01..31, else one digit in 1..9, tried in
the alternation order of the pattern). -/
def parseDayTok : List Char → Option (Nat × List Char)
  | [] => none
  | c :: rest =>
    let two : Option (Nat × List Char) :=
      match rest with
      | [] => none
      | c2 :: r2 =>
        if (c == '3' && (c2 == '0' || c2 == '1')) ||
           ((c == '1' || c == '2') && isDigitC c2) ||
           (c == '0' && (49 ≤ c2.toNat && c2.toNat ≤ 57)) then
          some (10 * digitVal c + digitVal c2, r2)
        else none
    match two with
    | some x => some x
    | none =>
      if 49 ≤ c.toNat && c.toNat ≤ 57 then some (digitVal c, rest) else none

/-- parseMonthTok models the regular expression CPython strptime compiles
for the %m directive (1[0-2], 0[1-9] or [1-9]). -/
def parseMonthTok : List Char → Option (Nat × List Char)
  | [] => none
  | c :: rest =>
    let two : Option (Nat × List Char) :=
      match rest with
      | [] => none
      | c2 :: r2 =>
        if (c == '1' && (c2 == '0' || c2 == '1' || c2 == '2')) ||
           (c == '0' && (49 ≤ c2.toNat && c2.toNat ≤ 57)) then
          some (10 * digitVal c + digitVal c2, r2)
        else none
    match two with
    | some x => some x
    | none =>
      if 49 ≤ c.toNat && c.toNat ≤ 57 then some (digitVal c, rest) else none

/-- parseYear4 models the regular expression CPython strptime compiles for
the %Y directive: exactly four digits. -/
def parseYear4 : List Char → Option (Nat × List Char)
  | a :: b :: c :: d :: r =>
    if isDigitC a && isDigitC b && isDigitC c && isDigitC d then
      some (1000 * digitVal a + 100 * digitVal b + 10 * digitVal c + digitVal d, r)
    else none
  | _ => none

/-- wsSkip models the pattern a whitespace run in a strptime format string
compiles to, one or more whitespace characters, consumed greedily. -/
def wsSkip : List Char → Option (List Char)
  | [] => none
  | c :: r => if isWsC c then some (r.dropWhile fun x => isWsC x) else none

/-- litDE models the two literal characters de of the format
"%d de %m de %Y" (matched here case-sensitively; every input built by the
pipeline is lowercase). -/
def litDE : List Char → Option (List Char)
  | 'd' :: 'e' :: r => some r
  | _ => none

/-- isLeap is the Gregorian leap-year rule used by Python datetime. -/
def isLeap (y : Nat) : Bool :=
  y % 4 == 0 && (!(y % 100 == 0) || y % 400 == 0)

/-- daysInMonth is the month-length table of Python datetime. -/
def daysInMonth (m y : Nat) : Nat :=
  if m = 2 then (if isLeap y then 29 else 28)
  else if m = 4 ∨ m = 6 ∨ m = 9 ∨ m = 11 then 30
  else 31

/-- strptimeDMY models datetime.datetime.strptime(s, "%d de %m de %Y"):
match the compiled regular expression against the whole string, then build
a datetime, whose constructor checks the calendar ranges.  A None result is
the ValueError branch. -/
def strptimeDMY (s : List Char) : Option (Nat × Nat × Nat) :=
  (parseDayTok s).bind fun dr =>
  (wsSkip dr.2).bind fun r2 =>
  (litDE r2).bind fun r3 =>
  (wsSkip r3).bind fun r4 =>
  (parseMonthTok r4).bind fun mr =>
  (wsSkip mr.2).bind fun r6 =>
  (litDE r6).bind fun r7 =>
  (wsSkip r7).bind fun r8 =>
  (parseYear4 r8).bind fun yr =>
  if yr.2.isEmpty then
    if 1 ≤ yr.1 ∧ yr.1 ≤ 9999 ∧ 1 ≤ mr.1 ∧ mr.1 ≤ 12 ∧
        1 ≤ dr.1 ∧ dr.1 ≤ daysInMonth mr.1 yr.1 then
      some (yr.1, mr.1, dr.1)
    else none
  else none

/-- digitChr is the ASCII digit character for a value below ten. -/
def digitChr (n : Nat) : Char := Char.ofNat (48 + n)

/-- twoDigits is the zero-padded two-digit rendering used by strftime for
%m and %d. -/
def twoDigits (n : Nat) : List Char := [digitChr (n / 10), digitChr (n % 10)]

/-- fourDigits is the four-digit rendering used by strftime for %Y (exact
for the years 1000..9999 that a four-digit raw year with nonzero leading
digit produces). -/
def fourDigits (n : Nat) : List Char :=
  [digitChr (n / 1000), digitChr (n / 100 % 10), digitChr (n / 10 % 10),
   digitChr (n % 10)]

/-- fmtISO is strftime("%Y-%m-%d") applied to the parsed date. -/
def fmtISO (y m d : Nat) : List Char :=
  fourDigits y ++ '-' :: (twoDigits m ++ '-' :: twoDigits d)

/-- dateDigits is the shared part of both get_date variants: strip carriage
returns and newlines, drop the day-of-week token, substitute the month
names and parse with strptime. -/
def dateDigits (t : List Char) : Option (Nat × Nat × Nat) :=
  strptimeDMY (monthSubst (dropDow (stripCRLF t)))

mutual
/-- HNode models a node of the document tree BeautifulSoup produces: an
element with a tag name, an attribute list and children, or a text node. -/
inductive HNode where
  | elem (tag : String) (attrs : List (String × String)) (children : HNodeList)
  | text (s : String)
/-- HNodeList is the child list of an `HNode` (a separate inductive so that
all tree recursions are structural). -/
inductive HNodeList where
  | nil : HNodeList
  | cons (n : HNode) (ns : HNodeList) : HNodeList
end

/-- nodesOf builds an `HNodeList` from an ordinary list, for writing
concrete documents. -/
def nodesOf : List HNode → HNodeList
  | [] => .nil
  | n :: ns => .cons n (nodesOf ns)

/-- findTag models BeautifulSoup find(tag): the first element with the
given tag name in preorder document order, searching the whole subtree
under the given node sequence. -/
def findTag (t : String) : HNodeList → Option HNode
  | .nil => none
  | .cons (.text _) ns => findTag t ns
  | .cons (.elem tg attrs cs) ns =>
    if tg = t then some (.elem tg attrs cs)
    else
      match findTag t cs with
      | some r => some r
      | none => findTag t ns

/-- findAllTag models BeautifulSoup find_all(tag): every element with the
given tag name, in preorder document order. -/
def findAllTag (t : String) : HNodeList → List HNode
  | .nil => []
  | .cons (.text _) ns => findAllTag t ns
  | .cons (.elem tg attrs cs) ns =>
    (if tg = t then [HNode.elem tg attrs cs] else []) ++
      findAllTag t cs ++ findAllTag t ns

/-- textL models the .text property over a node sequence: the
concatenation of all string descendants in document order. -/
def textL : HNodeList → List Char
  | .nil => []
  | .cons (.text s) ns => s.toList ++ textL ns
  | .cons (.elem _ _ cs) ns => textL cs ++ textL ns

/-- textOf is the .text property of a single tag. -/
def textOf : HNode → List Char
  | .text s => s.toList
  | .elem _ _ cs => textL cs

/-- childrenOf gives the child sequence of a node. -/
def childrenOf : HNode → HNodeList
  | .text _ => .nil
  | .elem _ _ cs => cs

/-- getAttr models Tag.get(key): the attribute value or None. -/
def getAttr (n : HNode) (k : String) : Option String :=
  match n with
  | .text _ => none
  | .elem _ attrs _ => attrs.lookup k

/-- CssSel is one compound selector of the descendant chain used by the
scripts: a tag name, an optional id and a set of required classes. -/
structure CssSel where
  tag : String
  idAttr : Option String
  classes : List String

/-- classTokens splits a class attribute value into class names. -/
def classTokens (v : String) : List (List Char) := pySplitWs v.toList

/-- matchesSel decides whether an element with the given tag and attributes
matches one compound selector. -/
def matchesSel (s : CssSel) (tg : String) (attrs : List (String × String)) :
    Bool :=
  (tg == s.tag) &&
  (match s.idAttr with
   | none => true
   | some i => attrs.lookup "id" == some i) &&
  s.classes.all fun cl =>
    match attrs.lookup "class" with
    | none => false
    | some v => (classTokens v).contains cl.toList

/-- selWalk is the worker of `select`.  `pend` holds the selector chains
whose already-consumed prefix has been matched by ancestors of the current
position (plus, always, the full chain); a node is a result when some
pending chain is down to its last compound selector and the node matches
it.  Results come out in preorder document order, as soup.select returns
them. -/
def selWalk (full : CssSel × List CssSel) :
    List (CssSel × List CssSel) → HNodeList → List HNode
  | _, .nil => []
  | pend, .cons (.text _) ns => selWalk full pend ns
  | pend, .cons (.elem tg attrs cs) ns =>
    let hit := pend.any fun p => matchesSel p.1 tg attrs && p.2.isEmpty
    let prog := pend.filterMap fun p =>
      if matchesSel p.1 tg attrs then
        match p.2 with
        | [] => none
        | r :: rs => some (r, rs)
      else none
    (if hit then [HNode.elem tg attrs cs] else []) ++
      selWalk full (pend ++ prog) cs ++ selWalk full pend ns

/-- select models soup.select for a chain of compound selectors combined
by the descendant combinator (the only combinator the long selector of the
scripts uses). -/
def select (sels : List CssSel) (doc : HNodeList) : List HNode :=
  match sels with
  | [] => []
  | s :: rest => selWalk (s, rest) [(s, rest)] doc

/-- article_selector is the fixed selector string of get_discursos_urls,
written as its parsed chain of compound selectors. -/
def article_selector : List CssSel :=
  [⟨"html", none, []⟩,
   ⟨"body", none, []⟩,
   ⟨"div", some "jm-allpage", ["nofluid"]⟩,
   ⟨"div", some "jm-mainpage", []⟩,
   ⟨"div", some "jm-mainpage-in", []⟩,
   ⟨"div", some "jm-main", ["lcr", "scheme1", "nocolumns", "clearfix"]⟩,
   ⟨"div", some "jm-maincontent", []⟩,
   ⟨"main", none, ["home-special", "home-mid"]⟩,
   ⟨"div", none, ["container"]⟩,
   ⟨"section", none, []⟩,
   ⟨"div", none, ["row", "row-extra", "row-news", "row-clear-4"]⟩,
   ⟨"div", none, ["blog"]⟩,
   ⟨"div", none, ["contentboxes"]⟩,
   ⟨"div", none, ["box", "col-sm-6", "col-md-3"]⟩,
   ⟨"div", none, ["item"]⟩]

/-- get_title models the identical get_title of both scripts: the text of
the first h2 element, or an absent value. -/
def get_title (doc : HNodeList) : Option (List Char) :=
  (findTag "h2" doc).map textOf

/-- get_article_content models the identical get_article_content of both
scripts: join with no separator the text of every paragraph under the
first article element that has no strong descendant; absent when there is
no article element. -/
def get_article_content (doc : HNodeList) : Option (List Char) :=
  (findTag "article" doc).map fun a =>
    (((findAllTag "p" (childrenOf a)).filter fun p =>
        (findTag "strong" (childrenOf p)).isNone).map textOf).flatten

/-- schemeChar is the set of characters CPython urlsplit accepts inside a
scheme name. -/
def schemeChar (c : Char) : Bool :=
  isDigitC c || isLowerAlphaC c || (65 ≤ c.toNat && c.toNat ≤ 90) ||
    c == '+' || c == '-' || c == '.'

/-- isAlphaAsciiC is true on ASCII letters. -/
def isAlphaAsciiC (c : Char) : Bool :=
  isLowerAlphaC c || (65 ≤ c.toNat && c.toNat ≤ 90)

/-- splitAtChar splits at the first occurrence of a character, reporting
whether one was found. -/
def splitAtChar (c : Char) : List Char → List Char × Option (List Char)
  | [] => ([], none)
  | x :: xs =>
    if x == c then ([], some xs)
    else
      let p := splitAtChar c xs
      (x :: p.1, p.2)

/-- UrlParts is the five-component result of urlsplit; an empty component
stands for an absent one (CPython drops empty components the same way when
it reassembles the URL). -/
structure UrlParts where
  scheme : List Char
  netloc : List Char
  path : List Char
  query : List Char
  fragment : List Char

/-- urlsplitM models urllib.parse.urlsplit for the hierarchical http-style
URLs the scripts handle. -/
def urlsplitM (u : List Char) : UrlParts :=
  let f := splitAtChar '#' u
  let frag := f.2.getD []
  let u1 := f.1
  let pre := u1.takeWhile schemeChar
  let su :=
    match u1.drop pre.length with
    | ':' :: rest =>
      if !pre.isEmpty && (match pre.head? with
                          | some c => isAlphaAsciiC c
                          | none => false) then
        (lowerL pre, rest)
      else ([], u1)
    | _ => ([], u1)
  let scheme := su.1
  let u2 := su.2
  let nu :=
    match u2 with
    | '/' :: '/' :: rest =>
      (rest.takeWhile fun c => !(c == '/' || c == '?' || c == '#'),
       rest.dropWhile fun c => !(c == '/' || c == '?' || c == '#'))
    | _ => ([], u2)
  let q := splitAtChar '?' nu.2
  ⟨scheme, nu.1, q.1, q.2.getD [], frag⟩

/-- urlunsplitM models urllib.parse.urlunsplit. -/
def urlunsplitM (p : UrlParts) : List Char :=
  let url0 := p.path
  let url1 :=
    if p.netloc ≠ [] ∨ url0.take 2 = ['/', '/'] then
      '/' :: '/' :: (p.netloc ++
        (if url0 ≠ [] ∧ url0.head? ≠ some '/' then '/' :: url0 else url0))
    else url0
  let url2 := if p.scheme ≠ [] then p.scheme ++ ':' :: url1 else url1
  let url3 := if p.query ≠ [] then url2 ++ '?' :: p.query else url2
  if p.fragment ≠ [] then url3 ++ '#' :: p.fragment else url3

/-- splitSlash models Python path.split("/"), which keeps empty pieces. -/
def splitSlash : List Char → List (List Char)
  | [] => [[]]
  | '/' :: r => [] :: splitSlash r
  | c :: r =>
    match splitSlash r with
    | [] => [[c]]
    | t :: ts => (c :: t) :: ts

/-- joinSlash models "/".join(segments). -/
def joinSlash : List (List Char) → List Char
  | [] => []
  | [t] => t
  | t :: ts => t ++ '/' :: joinSlash ts

/-- keepLastFilter drops empty segments except the final one, the
`segments[1:-1] = filter(None, segments[1:-1])` step of urljoin applied to
everything after the first segment. -/
def keepLastFilter : List (List Char) → List (List Char)
  | [] => []
  | [x] => [x]
  | x :: rest =>
    if x.isEmpty then keepLastFilter rest else x :: keepLastFilter rest

/-- resolveSegs models the dot-segment loop of urljoin (acc holds the
resolved segments in reverse; a pop on an empty stack is ignored). -/
def resolveSegs (acc : List (List Char)) : List (List Char) → List (List Char)
  | [] => acc.reverse
  | s :: rest =>
    if s = ['.', '.'] then resolveSegs (acc.drop 1) rest
    else if s = ['.'] then resolveSegs acc rest
    else resolveSegs (s :: acc) rest

/-- urljoinM models urllib.parse.urljoin for http-style URLs (the
uses_relative and uses_netloc scheme-list membership tests of CPython are
taken as passed, which they are for http, https and scheme-less URLs). -/
def urljoinM (base url : List Char) : List Char :=
  if base.isEmpty then url
  else if url.isEmpty then base
  else
    let b := urlsplitM base
    let r := urlsplitM url
    let scheme := if r.scheme.isEmpty then b.scheme else r.scheme
    if scheme ≠ b.scheme then url
    else if r.netloc ≠ [] then
      urlunsplitM ⟨scheme, r.netloc, r.path, r.query, r.fragment⟩
    else if r.path = [] ∧ r.query = [] then
      urlunsplitM ⟨scheme, b.netloc, b.path, b.query, r.fragment⟩
    else if r.path = [] then
      urlunsplitM ⟨scheme, b.netloc, b.path, r.query, r.fragment⟩
    else
      let baseParts0 := splitSlash b.path
      let baseParts :=
        if baseParts0.getLast? ≠ some [] then baseParts0.dropLast
        else baseParts0
      let segments :=
        if r.path.head? = some '/' then splitSlash r.path
        else
          match baseParts ++ splitSlash r.path with
          | [] => []
          | s0 :: rest => s0 :: keepLastFilter rest
      let resolved := resolveSegs [] segments
      let resolved2 :=
        if segments.getLast? = some ['.'] ∨ segments.getLast? = some ['.', '.']
        then resolved ++ [[]] else resolved
      let joined := joinSlash resolved2
      let newPath := if joined.isEmpty then ['/'] else joined
      urlunsplitM ⟨scheme, b.netloc, newPath, r.query, r.fragment⟩

/-- urlScan is the inner part of the link-discovery comprehension: walk the
anchors of one article box in order; reading a missing href attribute
raises AttributeError (None.lower()); a qualifying href (keyword contained
in the lowercased href) contributes one resolved URL. -/
def urlScan (resolve : List Char → List Char) (kw : List Char) :
    List HNode → Except PyErr (List (List Char))
  | [] => .ok []
  | a :: rest =>
    match getAttr a "href" with
    | none => .error .attributeError
    | some h =>
      match urlScan resolve kw rest with
      | .error e => .error e
      | .ok tl =>
        .ok (if containsSub kw (lowerL h.toList) then
          resolve h.toList :: tl else tl)

/-- boxScan runs `urlScan` over every selected article box in order and
concatenates the results, as the nested comprehension does. -/
def boxScan (resolve : List Char → List Char) (kw : List Char) :
    List HNode → Except PyErr (List (List Char))
  | [] => .ok []
  | b :: bs =>
    match urlScan resolve kw (findAllTag "a" (childrenOf b)) with
    | .error e => .error e
    | .ok h1 =>
      match boxScan resolve kw bs with
      | .error e => .error e
      | .ok h2 => .ok (h1 ++ h2)

/-- qualifyingHrefs is the qualifying hrefs of a page before any
resolution, a specification-side notion used to compare the two
resolution strategies. -/
def qualifyingHrefs (doc : HNodeList) (kw : List Char) :
    Except PyErr (List (List Char)) :=
  boxScan (fun h => h) kw (select article_selector doc)

namespace Collect

/-- get_discursos_urls models the collect_and_update_data variant after a
successful fetch of the already-parsed index document: select the article
boxes and resolve each qualifying href with urljoin(base_url, href). -/
def get_discursos_urls (doc : HNodeList) (base_url keyword : List Char) :
    Except PyErr (List (List Char)) :=
  boxScan (fun h => urljoinM base_url h) keyword (select article_selector doc)

/-- get_date models the collect_and_update_data variant: with no time
element the script assigns np.nan and then calls .split() on it, raising
AttributeError; with a time element a strptime failure is caught and
np.nan (absent) is returned. -/
def get_date (doc : HNodeList) : Except PyErr (Option (List Char)) :=
  match findTag "time" doc with
  | none => .error .attributeError
  | some tt =>
    match dateDigits (textOf tt) with
    | some (y, m, d) => .ok (some (fmtISO y m d))
    | none => .ok none

end Collect

namespace Monitor

/-- get_discursos_urls models the monitor_website variant, which builds
each URL by the f-string concatenation of base_url and the href. -/
def get_discursos_urls (doc : HNodeList) (base_url keyword : List Char) :
    Except PyErr (List (List Char)) :=
  boxScan (fun h => base_url ++ h) keyword (select article_selector doc)

/-- get_date models the monitor_website variant: with no time element it
returns None; with one, strptime runs outside any try block, so a parse
failure raises ValueError. -/
def get_date (doc : HNodeList) : Except PyErr (Option (List Char)) :=
  match findTag "time" doc with
  | none => .ok none
  | some tt =>
    match dateDigits (textOf tt) with
    | some (y, m, d) => .ok (some (fmtISO y m d))
    | none => .error .valueError

end Monitor

/-- SpeechRec is one row of the dataset: title, content, date (each
possibly absent) and the url, the identity key. -/
structure SpeechRec where
  title : Option (List Char)
  content : Option (List Char)
  date : Option (List Char)
  url : List Char
deriving DecidableEq, Repr

/-- urlsOf is the url column of a store. -/
def urlsOf (store : List SpeechRec) : List (List Char) := store.map (·.url)

/-- lexLe is code-point lexicographic comparison, the string order pandas
uses when it sorts the ISO date column. -/
def lexLe : List Char → List Char → Bool
  | [], _ => true
  | _ :: _, [] => false
  | a :: as, b :: bs =>
    if a.toNat < b.toNat then true
    else if b.toNat < a.toNat then false
    else lexLe as bs

/-- dateDescLe orders records by date descending with absent dates last,
the key order of sort_values(by="date", ascending=False) with the default
na_position="last".  The order of records with equal keys is left to the
sorting algorithm (pandas defaults to an unstable kind), so the model only
commits to some reordering consistent with this key order. -/
def dateDescLe (a b : SpeechRec) : Bool :=
  match a.date, b.date with
  | none, none => true
  | none, some _ => false
  | some _, none => true
  | some x, some y => lexLe y x

/-- sortByDateDesc models the combined_data.sort_values step up to the
order of records with equal dates. -/
def sortByDateDesc (l : List SpeechRec) : List SpeechRec :=
  List.insertionSort (fun a b => dateDescLe a b = true) l

namespace Collect

/-- colsOf models the loop of create_dataframe, which appends to the four
column lists only for urls whose fetch produced a document; get_date can
raise out of the loop (AttributeError for a document without a time
element), which aborts the whole batch. -/
def colsOf (fetch : List Char → Option HNodeList) :
    List (List Char) →
    Except PyErr (List (Option (List Char)) × List (Option (List Char)) ×
      List (Option (List Char)) × List (List Char))
  | [] => .ok ([], [], [], [])
  | u :: rest =>
    match fetch u with
    | none => colsOf fetch rest
    | some ns =>
      match get_date ns with
      | .error e => .error e
      | .ok dd =>
        match colsOf fetch rest with
        | .error e => .error e
        | .ok cols =>
          .ok (get_title ns :: cols.1, get_article_content ns :: cols.2.1,
            dd :: cols.2.2.1, u :: cols.2.2.2)

/-- zip4 turns the four column lists into rows, as the DataFrame
constructor pairs the columns positionally. -/
def zip4 : List (Option (List Char)) → List (Option (List Char)) →
    List (Option (List Char)) → List (List Char) → List SpeechRec
  | t :: ts, c :: cs, d :: ds, u :: us => ⟨t, c, d, u⟩ :: zip4 ts cs ds us
  | _, _, _, _ => []

/-- create_dataframe models the sequential batch assembly of
collect_and_update_data: one record per url whose fetch succeeded, in
input order. -/
def create_dataframe (urls : List (List Char))
    (fetch : List Char → Option HNodeList) : Except PyErr (List SpeechRec) :=
  match colsOf fetch urls with
  | .error e => .error e
  | .ok cols => .ok (zip4 cols.1 cols.2.1 cols.2.2.1 cols.2.2.2)

/-- check_csv_exists_and_fetch_missing models the delta computation
list(set(current_urls).difference(existing_urls)); the result is the set
difference, modelled with first-occurrence deduplication (CPython set
iteration order is not otherwise relied on anywhere). -/
def check_csv_exists_and_fetch_missing (existing current : List (List Char)) :
    List (List Char) :=
  current.dedup.filter fun u => decide (u ∉ existing)

/-- mergeStep is the merge of the collect_and_update_data driver when new
urls exist and a store exists: fetch the delta, concatenate onto the
existing rows and rewrite the store sorted by date descending. -/
def mergeStep (store : List SpeechRec) (current : List (List Char))
    (fetch : List Char → Option HNodeList) : Except PyErr (List SpeechRec) :=
  let newUrls := check_csv_exists_and_fetch_missing (urlsOf store) current
  match create_dataframe newUrls fetch with
  | .error e => .error e
  | .ok nd => .ok (sortByDateDesc (store ++ nd))

/-- main_run models the control flow of main in collect_and_update_data:
with a non-empty delta, fetch just the delta and merge (concat, sort,
replace) when a store exists, else write the new rows; with an empty
delta, refetch every currently listed url and write a fresh store. -/
def main_run (store : Option (List SpeechRec)) (current : List (List Char))
    (fetch : List Char → Option HNodeList) : Except PyErr (List SpeechRec) :=
  let existing := match store with | none => [] | some s => urlsOf s
  let newUrls := check_csv_exists_and_fetch_missing existing current
  if newUrls.isEmpty then create_dataframe current fetch
  else
    match create_dataframe newUrls fetch with
    | .error e => .error e
    | .ok nd =>
      match store with
      | some s => .ok (sortByDateDesc (s ++ nd))
      | none => .ok nd

end Collect

namespace Monitor

/-- createGo is the loop of create_data over the zip of the urls with the
gathered fetch results (asyncio.gather returns results in task order, so
the zip pairs each url with its own result); a None result is skipped, and
get_date can raise ValueError out of the loop. -/
def createGo : List (List Char × Option HNodeList) →
    Except PyErr (List SpeechRec)
  | [] => .ok []
  | (_, none) :: rest => createGo rest
  | (u, some ns) :: rest =>
    match get_date ns with
    | .error e => .error e
    | .ok d =>
      match createGo rest with
      | .error e => .error e
      | .ok tl => .ok (⟨get_title ns, get_article_content ns, d, u⟩ :: tl)

/-- create_data models the concurrent batch assembly of monitor_website. -/
def create_data (urls : List (List Char))
    (fetch : List Char → Option HNodeList) : Except PyErr (List SpeechRec) :=
  createGo (urls.zip (urls.map fetch))

/-- newUrlsOf models the delta list comprehension of main_async, which
keeps duplicates of the current listing. -/
def newUrlsOf (existing current : List (List Char)) : List (List Char) :=
  current.filter fun u => decide (u ∉ existing)

/-- mergeStep is the merge of the monitor_website driver: fetch the delta
and append the rows to the store. -/
def mergeStep (store : List SpeechRec) (current : List (List Char))
    (fetch : List Char → Option HNodeList) : Except PyErr (List SpeechRec) :=
  let newUrls := newUrlsOf (urlsOf store) current
  match create_data newUrls fetch with
  | .error e => .error e
  | .ok d => .ok (store ++ d)

/-- main_async models the control flow of main_async in monitor_website:
with a non-empty delta, fetch it and append; with an empty delta, only log
and leave the store untouched. -/
def main_async (store : List SpeechRec) (current : List (List Char))
    (fetch : List Char → Option HNodeList) : Except PyErr (List SpeechRec) :=
  let newUrls := newUrlsOf (urlsOf store) current
  if newUrls.isEmpty then .ok store
  else
    match create_data newUrls fetch with
    | .error e => .error e
    | .ok d => .ok (store ++ d)

end Monitor

/-- exArticleDoc is the document
article(p(Content), p(strong(Not this))) from the test suite. -/
def exArticleDoc : HNodeList :=
  nodesOf [.elem "article" [] (nodesOf
    [.elem "p" [] (nodesOf [.text "Content"]),
     .elem "p" [] (nodesOf [.elem "strong" [] (nodesOf [.text "Not this"])])])]

/-- noArticleDoc is a document with paragraphs but no article element. -/
def noArticleDoc : HNodeList :=
  nodesOf [.elem "html" [] (nodesOf
    [.elem "p" [] (nodesOf [.text "x"])])]

/-- chainWrap nests content inside the exact container hierarchy that
article_selector expects, with the innermost div.item as the article
box. -/
def chainWrap (items : List HNode) : HNodeList :=
  nodesOf [
    .elem "html" [] (nodesOf [
    .elem "body" [] (nodesOf [
    .elem "div" [("id", "jm-allpage"), ("class", "nofluid")] (nodesOf [
    .elem "div" [("id", "jm-mainpage")] (nodesOf [
    .elem "div" [("id", "jm-mainpage-in")] (nodesOf [
    .elem "div" [("id", "jm-main"), ("class", "lcr scheme1 nocolumns clearfix")] (nodesOf [
    .elem "div" [("id", "jm-maincontent")] (nodesOf [
    .elem "main" [("class", "home-special home-mid")] (nodesOf [
    .elem "div" [("class", "container")] (nodesOf [
    .elem "section" [] (nodesOf [
    .elem "div" [("class", "row row-extra row-news row-clear-4")] (nodesOf [
    .elem "div" [("class", "blog")] (nodesOf [
    .elem "div" [("class", "contentboxes")] (nodesOf [
    .elem "div" [("class", "box col-sm-6 col-md-3")] (nodesOf [
    .elem "div" [("class", "item")] (nodesOf items)])])])])])])])])])])])])])])]

/-- anchorGood is an anchor with href milei-speech, as in the test
suite. -/
def anchorGood : HNode :=
  .elem "a" [("href", "milei-speech")] (nodesOf [.text "Link"])

/-- anchorNoHref is an anchor carrying no href attribute. -/
def anchorNoHref : HNode := .elem "a" [] (nodesOf [.text "Link"])

/-- chainDocGood is an index page whose single article box holds one
qualifying anchor. -/
def chainDocGood : HNodeList := chainWrap [anchorGood]

/-- chainDocBad is an index page whose single article box holds an anchor
with no href attribute. -/
def chainDocBad : HNodeList := chainWrap [anchorNoHref]

/-- tagIs tests whether a node is an element with the given tag name. -/
def tagIs (t : String) : HNode → Bool
  | .elem tg _ _ => tg == t
  | .text _ => false

/-- elemsL enumerates every element of a subtree in preorder document
order, a specification-side notion used to restate the extraction
contracts independently of the find and find_all recursions. -/
def elemsL : HNodeList → List HNode
  | .nil => []
  | .cons (.text _) ns => elemsL ns
  | .cons (.elem tg a cs) ns => .elem tg a cs :: (elemsL cs ++ elemsL ns)

/-- specArticleContent restates the content contract in the words of the
specification: the concatenation, with no separator, of the text of every
paragraph element that is a descendant of the first article container,
excluding any paragraph containing a strong element; absent when no
article container exists. -/
def specArticleContent (doc : HNodeList) : Option (List Char) :=
  ((elemsL doc).find? (tagIs "article")).map fun art =>
    ((((elemsL (childrenOf art)).filter (tagIs "p")).filter fun p =>
      !((elemsL (childrenOf p)).any (tagIs "strong"))).map textOf).flatten

/-- Collect.dateOk is true when get_date of the collect variant does not
raise on the given document. -/
def Collect.dateOk (ns : HNodeList) : Bool :=
  match Collect.get_date ns with
  | .ok _ => true
  | .error _ => false

/-- Collect.dateVal is the date the collect variant extracts when it does
not raise. -/
def Collect.dateVal (ns : HNodeList) : Option (List Char) :=
  match Collect.get_date ns with
  | .ok v => v
  | .error _ => none

/-- Monitor.dateOk is true when get_date of the monitor variant does not
raise on the given document. -/
def Monitor.dateOk (ns : HNodeList) : Bool :=
  match Monitor.get_date ns with
  | .ok _ => true
  | .error _ => false

/-- Monitor.dateVal is the date the monitor variant extracts when it does
not raise. -/
def Monitor.dateVal (ns : HNodeList) : Option (List Char) :=
  match Monitor.get_date ns with
  | .ok v => v
  | .error _ => none

/-- Collect.recOf is the record the collect batch step produces for one
url, when its fetch succeeds. -/
def Collect.recOf (fetch : List Char → Option HNodeList) (u : List Char) :
    Option SpeechRec :=
  (fetch u).map fun ns =>
    ⟨get_title ns, get_article_content ns, Collect.dateVal ns, u⟩

/-- Monitor.recOf is the record the monitor batch step produces for one
url, when its fetch succeeds. -/
def Monitor.recOf (fetch : List Char → Option HNodeList) (u : List Char) :
    Option SpeechRec :=
  (fetch u).map fun ns =>
    ⟨get_title ns, get_article_content ns, Monitor.dateVal ns, u⟩

/-- docDated is a well-formed article page: a title, a parseable date and
one body paragraph. -/
def docDated : HNodeList :=
  nodesOf [.elem "h2" [] (nodesOf [.text "T"]),
    .elem "time" [] (nodesOf [.text "lunes 13 de febrero de 2025"]),
    .elem "article" [] (nodesOf [.elem "p" [] (nodesOf [.text "Body"])])]

/-- docNoTime is an article page with no time element. -/
def docNoTime : HNodeList :=
  nodesOf [.elem "h2" [] (nodesOf [.text "T"])]

/-- docBadDate is an article page whose time element holds unparseable
text. -/
def docBadDate : HNodeList :=
  nodesOf [.elem "time" [] (nodesOf [.text "garbage"])]

/-- fetchA is a fetch oracle that returns the well-formed page for every
url. -/
def fetchA : List Char → Option HNodeList := fun _ => some docDated

/-- recA is the record `fetchA` yields for the url a. -/
def recA : SpeechRec :=
  ⟨some "T".toList, some "Body".toList, some "2025-02-13".toList, "a".toList⟩

/-- recB is the record `fetchA` yields for the url b. -/
def recB : SpeechRec :=
  ⟨some "T".toList, some "Body".toList, some "2025-02-13".toList, "b".toList⟩

/-- recOldB is a previously stored record for the url b, with content that
a refetch does not reproduce. -/
def recOldB : SpeechRec :=
  ⟨some "Old".toList, some "OldBody".toList, some "2024-01-01".toList,
    "b".toList⟩

/-- exceptIsOk is true on a result that is not a raised exception. -/
def exceptIsOk {e a : Type} : Except e a → Bool
  | .ok _ => true
  | .error _ => false

/-- fetchB is a fetch oracle under which the url bad fails and every other
url yields the well-formed page. -/
def fetchB : List Char → Option HNodeList := fun u =>
  if u = "bad".toList then none else some docDated

/-- Collect.mergeTwice runs the collect merge step twice with the same
candidate set, feeding the first result back as the existing store. -/
def Collect.mergeTwice (store : List SpeechRec) (current : List (List Char))
    (fetch : List Char → Option HNodeList) : Except PyErr (List SpeechRec) :=
  match Collect.mergeStep store current fetch with
  | .error e => .error e
  | .ok s1 => Collect.mergeStep s1 current fetch

/-- Monitor.mergeTwice runs the monitor merge step twice with the same
candidate set. -/
def Monitor.mergeTwice (store : List SpeechRec) (current : List (List Char))
    (fetch : List Char → Option HNodeList) : Except PyErr (List SpeechRec) :=
  match Monitor.mergeStep store current fetch with
  | .error e => .error e
  | .ok t1 => Monitor.mergeStep t1 current fetch

/-- okLength is the record count of a merge result (zero for a raised
exception). -/
def okLength : Except PyErr (List SpeechRec) → Nat
  | .ok l => l.length
  | .error _ => 0

/-- okNodupUrls is true when a merge result is a store with no duplicate
urls. -/
def okNodupUrls : Except PyErr (List SpeechRec) → Bool
  | .ok l => decide ((urlsOf l).Nodup)
  | .error _ => false

/-- mkRawDate builds the raw date text
dow day de month-name de year with single spaces. -/
def mkRawDate (dow dStr name yStr : List Char) : List Char :=
  dow ++ ' ' :: (dStr ++ (deSp ++ (name ++ (deSp ++ yStr))))

/-- monthName is the Spanish name of month m per the month_map table. -/
def monthName (m : Nat) : List Char :=
  ((month_map[m - 1]?).map fun p => p.1).getD []

/-- monthNum is the two-digit replacement of month m per the month_map
table. -/
def monthNum (m : Nat) : List Char :=
  ((month_map[m - 1]?).map fun p => p.2).getD []

/-- mkTimeDoc is a document whose time element holds the given raw date
text. -/
def mkTimeDoc (raw : List Char) : HNodeList :=
  nodesOf [.elem "time" [] (nodesOf [.text (String.mk raw)])]

theorem pyReplace_nil (old new : List Char) : pyReplace [] old new = [] := by
  unfold pyReplace
  cases old <;> simp [pyReplaceGo]

theorem pyReplaceGo_skip_all (old new : List Char) :
    ∀ (u s : List Char), pyReplaceGo old new u.length (u ++ s) =
      pyReplaceGo old new 0 s := by
  intro u
  induction u with
  | nil => intro s; rfl
  | cons c u ih => intro s; simpa [pyReplaceGo] using ih s

theorem pyReplace_match (s old new : List Char) (hne : old ≠ [])
    (h : old.isPrefixOf s = true) :
    pyReplace s old new = new ++ pyReplace (s.drop old.length) old new := by
  rcases List.isPrefixOf_iff_prefix.mp h with ⟨t, rfl⟩
  rcases old with _ | ⟨o, os⟩
  · exact absurd rfl hne
  · have hpre : (o :: os).isPrefixOf (o :: os ++ t) = true := by
      exact List.isPrefixOf_iff_prefix.mpr ⟨t, rfl⟩
    have hskip := pyReplaceGo_skip_all (o :: os) new os t
    have hdrop : ((o :: os) ++ t).drop (o :: os).length = t := List.drop_left _ _
    rw [hdrop]
    show pyReplaceGo (o :: os) new 0 (o :: (os ++ t)) =
      new ++ pyReplaceGo (o :: os) new 0 t
    rw [show pyReplaceGo (o :: os) new 0 (o :: (os ++ t)) =
        if (o :: os).isPrefixOf (o :: (os ++ t)) then
          new ++ pyReplaceGo (o :: os) new ((o :: os).length - 1) (os ++ t)
        else o :: pyReplaceGo (o :: os) new 0 (os ++ t) from rfl]
    rw [show (o :: (os ++ t)) = (o :: os) ++ t from rfl, hpre]
    simp only [if_true, List.length_cons, Nat.add_sub_cancel]
    rw [hskip]

theorem pyReplace_nomatch (c : Char) (s old new : List Char)
    (h : old.isPrefixOf (c :: s) = false) :
    pyReplace (c :: s) old new = c :: pyReplace s old new := by
  have hne : old ≠ [] := by
    intro he; subst he; simp [List.isPrefixOf] at h
  rcases old with _ | ⟨o, os⟩
  · exact absurd rfl hne
  · show pyReplaceGo (o :: os) new 0 (c :: s) = c :: pyReplaceGo (o :: os) new 0 s
    rw [show pyReplaceGo (o :: os) new 0 (c :: s) =
        if (o :: os).isPrefixOf (c :: s) then
          new ++ pyReplaceGo (o :: os) new ((o :: os).length - 1) s
        else c :: pyReplaceGo (o :: os) new 0 s from rfl]
    rw [h]
    simp

theorem pyReplace_append_of_no_match (pre s old new : List Char)
    (hne : old ≠ [])
    (h : ∀ p q, pre = p ++ q → q ≠ [] → old.isPrefixOf (q ++ s) = false) :
    pyReplace (pre ++ s) old new = pre ++ pyReplace s old new := by
  induction pre with
  | nil => simp
  | cons c pre ih =>
    have hc : old.isPrefixOf (c :: (pre ++ s)) = false := by
      have := h [] (c :: pre) rfl (by simp)
      simpa using this
    rw [List.cons_append, pyReplace_nomatch c (pre ++ s) old new hc]
    rw [ih (fun p q hpq hq => h (c :: p) q (by rw [hpq]; rfl) hq)]
    rfl

theorem lower_ne_digit {c d : Char} (hc : isLowerAlphaC c = true)
    (hd : isDigitC d = true) : c ≠ d := by
  intro he
  subst he
  simp only [isLowerAlphaC, isDigitC, Bool.and_eq_true, decide_eq_true_eq] at hc hd
  omega

theorem isPrefixOf_head_ne {p d : Char} (ps l : List Char) (h : p ≠ d) :
    (p :: ps).isPrefixOf (d :: l) = false := by
  simp [List.isPrefixOf, h]

theorem isPrefixOf_digit_tail (pat : List Char)
    (hpat : ∀ c ∈ pat, isLowerAlphaC c = true) (Y : List Char)
    (hY : ∀ c ∈ Y, isDigitC c = true) :
    ∀ u : List Char, pat.isPrefixOf (u ++ Y) = true → pat.isPrefixOf u = true := by
  induction pat with
  | nil => intro u _; simp [List.isPrefixOf]
  | cons p ps ih =>
    intro u hu
    cases u with
    | nil =>
      exfalso
      cases Y with
      | nil => simp [List.isPrefixOf] at hu
      | cons y ys =>
        rw [List.nil_append] at hu
        rw [isPrefixOf_head_ne ps ys
          (lower_ne_digit (hpat p (by simp)) (hY y (by simp)))] at hu
        exact Bool.false_ne_true hu
    | cons c cs =>
      rw [List.cons_append] at hu
      simp only [List.isPrefixOf, Bool.and_eq_true] at hu ⊢
      exact ⟨hu.1, ih (fun x hx => hpat x (by simp [hx])) cs hu.2⟩

theorem pyReplace_digits (Y pat rep : List Char)
    (hY : ∀ c ∈ Y, isDigitC c = true) (hne : pat ≠ [])
    (ha : ∀ c ∈ pat, isLowerAlphaC c = true) :
    pyReplace Y pat rep = Y := by
  have h := pyReplace_append_of_no_match Y [] pat rep hne ?h
  · rw [List.append_nil] at h
    rw [h, pyReplace_nil, List.append_nil]
  case h =>
    intro p q hpq hq
    rcases q with _ | ⟨d, q⟩
    · exact absurd rfl hq
    rcases pat with _ | ⟨c, cs⟩
    · exact absurd rfl hne
    have hd : isDigitC d = true := hY d (by rw [hpq]; simp)
    rw [List.append_nil]
    exact isPrefixOf_head_ne cs q (lower_ne_digit (ha c (by simp)) hd)

theorem pyReplace_digit_pre (D rest pat rep : List Char)
    (hD : ∀ c ∈ D, isDigitC c = true) (hne : pat ≠ [])
    (ha : ∀ c ∈ pat, isLowerAlphaC c = true) :
    pyReplace (D ++ rest) pat rep = D ++ pyReplace rest pat rep := by
  apply pyReplace_append_of_no_match D rest pat rep hne
  intro p q hpq hq
  rcases q with _ | ⟨d, q⟩
  · exact absurd rfl hq
  rcases pat with _ | ⟨c, cs⟩
  · exact absurd rfl hne
  have hd : isDigitC d = true := hD d (by rw [hpq]; simp)
  exact isPrefixOf_head_ne cs (q ++ rest) (lower_ne_digit (ha c (by simp)) hd)

theorem suffix_cases {D C p q : List Char} (h : D ++ C = p ++ q) :
    (∃ d ds, q = d :: ds ++ C ∧ d ∈ D) ∨ q ∈ C.tails := by
  rcases List.append_eq_append_iff.mp h with ⟨a, ha1, ha2⟩ | ⟨c, hc1, hc2⟩
  · right
    exact (List.mem_tails _ _).mpr ⟨a, ha2.symm⟩
  · rcases c with _ | ⟨d, ds⟩
    · right
      rw [hc2, List.nil_append]
      exact (List.mem_tails _ _).mpr ⟨[], rfl⟩
    · left
      exact ⟨d, ds, by simpa using hc2, by rw [hc1]; simp⟩

theorem subst_skip (D C Y pat rep : List Char)
    (hD : ∀ c ∈ D, isDigitC c = true) (hY : ∀ c ∈ Y, isDigitC c = true)
    (hne : pat ≠ []) (ha : ∀ c ∈ pat, isLowerAlphaC c = true)
    (hC : ∀ q ∈ C.tails, pat.isPrefixOf q = false) :
    pyReplace (D ++ (C ++ Y)) pat rep = D ++ (C ++ Y) := by
  rw [pyReplace_digit_pre D (C ++ Y) pat rep hD hne ha]
  rw [pyReplace_append_of_no_match C Y pat rep hne ?nm]
  · rw [pyReplace_digits Y pat rep hY hne ha]
  case nm =>
    intro p q hpq hq
    have hqt : q ∈ C.tails := (List.mem_tails _ _).mpr ⟨p, hpq.symm⟩
    rcases hhh : pat.isPrefixOf (q ++ Y) with _ | _
    · rfl
    · exact absurd (isPrefixOf_digit_tail pat ha Y hY q hhh) (by simp [hC q hqt])

theorem subst_hit (D Y name num : List Char)
    (hD : ∀ c ∈ D, isDigitC c = true) (hY : ∀ c ∈ Y, isDigitC c = true)
    (hne : name ≠ []) (ha : ∀ c ∈ name, isLowerAlphaC c = true)
    (h1 : ∀ q ∈ deSp.tails, q ≠ [] →
      name.isPrefixOf (q ++ (name ++ deSp)) = false)
    (h2 : ∀ q ∈ deSp.tails, q ≠ [] → name.isPrefixOf q = false) :
    pyReplace (D ++ (deSp ++ (name ++ (deSp ++ Y)))) name num =
      D ++ (deSp ++ (num ++ (deSp ++ Y))) := by
  rw [pyReplace_digit_pre D (deSp ++ (name ++ (deSp ++ Y))) name num hD hne ha]
  rw [pyReplace_append_of_no_match deSp (name ++ (deSp ++ Y)) name num hne ?pre1]
  · rw [pyReplace_match (name ++ (deSp ++ Y)) name num hne
      (List.isPrefixOf_iff_prefix.mpr ⟨deSp ++ Y, rfl⟩)]
    rw [List.drop_left]
    rw [pyReplace_append_of_no_match deSp Y name num hne ?pre2]
    · rw [pyReplace_digits Y name num hY hne ha]
    case pre2 =>
      intro p q hpq hq
      have hqt : q ∈ deSp.tails := (List.mem_tails _ _).mpr ⟨p, hpq.symm⟩
      rcases hh : name.isPrefixOf (q ++ Y) with _ | _
      · rfl
      · exact absurd (isPrefixOf_digit_tail name ha Y hY q hh)
          (by simp [h2 q hqt hq])
  case pre1 =>
    intro p q hpq hq
    have hqt : q ∈ deSp.tails := (List.mem_tails _ _).mpr ⟨p, hpq.symm⟩
    rcases hh : name.isPrefixOf (q ++ (name ++ (deSp ++ Y))) with _ | _
    · rfl
    · exfalso
      have hre : q ++ (name ++ (deSp ++ Y)) = (q ++ (name ++ deSp)) ++ Y := by
        simp [List.append_assoc]
      rw [hre] at hh
      exact absurd (isPrefixOf_digit_tail name ha Y hY (q ++ (name ++ deSp)) hh)
        (by simp [h1 q hqt hq])

theorem splitGo_token (rest : List Char) :
    ∀ (tok acc : List Char), (∀ c ∈ tok, isWsC c = false) →
      acc.reverse ++ tok ≠ [] →
      splitGo acc (tok ++ ' ' :: rest) =
        (acc.reverse ++ tok) :: splitGo [] rest := by
  intro tok
  induction tok with
  | nil =>
    intro acc _ hne
    have hacc : acc.isEmpty = false := by
      rcases acc with _ | ⟨a, as⟩
      · simp at hne
      · rfl
    simp only [List.nil_append, List.append_nil] at hne ⊢
    show splitGo acc (' ' :: rest) = acc.reverse :: splitGo [] rest
    simp [splitGo, isWsC, hacc]
  | cons c tok ih =>
    intro acc hws hne
    have hc : isWsC c = false := hws c (by simp)
    show splitGo acc (c :: (tok ++ ' ' :: rest)) = _
    rw [show splitGo acc (c :: (tok ++ ' ' :: rest)) =
        if isWsC c then
          if acc.isEmpty then splitGo [] (tok ++ ' ' :: rest)
          else acc.reverse :: splitGo [] (tok ++ ' ' :: rest)
        else splitGo (c :: acc) (tok ++ ' ' :: rest) from rfl, hc]
    simp only [Bool.false_eq_true, if_false]
    rw [ih (c :: acc) (fun x hx => hws x (by simp [hx])) (by simp)]
    simp

theorem splitGo_last :
    ∀ (tok acc : List Char), (∀ c ∈ tok, isWsC c = false) →
      splitGo acc tok =
        if (acc.reverse ++ tok).isEmpty then [] else [acc.reverse ++ tok] := by
  intro tok
  induction tok with
  | nil =>
    intro acc _
    show (if acc.isEmpty then [] else [acc.reverse]) = _
    rcases acc with _ | ⟨a, as⟩ <;> simp
  | cons c tok ih =>
    intro acc hws
    have hc : isWsC c = false := hws c (by simp)
    show splitGo acc (c :: tok) = _
    rw [show splitGo acc (c :: tok) =
        if isWsC c then
          if acc.isEmpty then splitGo [] tok
          else acc.reverse :: splitGo [] tok
        else splitGo (c :: acc) tok from rfl, hc]
    simp only [Bool.false_eq_true, if_false]
    rw [ih (c :: acc) (fun x hx => hws x (by simp [hx]))]
    have h1 : (acc.reverse ++ c :: tok).isEmpty = false := by simp
    rw [h1]
    have h2 : ((c :: acc).reverse ++ tok).isEmpty = false := by
      have he : (c :: acc).reverse ++ tok = acc.reverse ++ c :: tok := by simp
      rw [he, h1]
    rw [h2]
    simp

theorem pySplitWs_token (tok rest : List Char) (hne : tok ≠ [])
    (hws : ∀ c ∈ tok, isWsC c = false) :
    pySplitWs (tok ++ ' ' :: rest) = tok :: pySplitWs rest := by
  have h := splitGo_token rest tok [] hws (by simpa using hne)
  simpa [pySplitWs] using h

theorem pySplitWs_single (tok : List Char) (hne : tok ≠ [])
    (hws : ∀ c ∈ tok, isWsC c = false) :
    pySplitWs tok = [tok] := by
  have h := splitGo_last tok [] hws
  have hemp : (([] : List Char).reverse ++ tok).isEmpty = false := by
    rw [List.isEmpty_eq_false]
    simpa using hne
  rw [pySplitWs, h, hemp]
  simp

theorem findTag_eq_find (t : String) (ns : HNodeList) :
    findTag t ns = (elemsL ns).find? (tagIs t) := by
  induction ns using findTag.induct t with
  | case1 => rfl
  | case2 s ns ih => simpa [findTag, elemsL] using ih
  | case3 attrs cs ns =>
    simp [findTag, elemsL, tagIs]
  | case4 tg attrs cs ns htg r hr ihcs =>
    rw [show findTag t (.cons (.elem tg attrs cs) ns) =
        (if tg = t then some (.elem tg attrs cs)
         else match findTag t cs with
              | some r => some r
              | none => findTag t ns) from rfl]
    rw [if_neg htg, hr]
    have : tagIs t (.elem tg attrs cs) = false := by
      simp [tagIs, htg]
    simp [elemsL, List.find?_append, this, ← ihcs, hr]
  | case5 tg attrs cs ns htg hr ihcs ihns =>
    rw [show findTag t (.cons (.elem tg attrs cs) ns) =
        (if tg = t then some (.elem tg attrs cs)
         else match findTag t cs with
              | some r => some r
              | none => findTag t ns) from rfl]
    rw [if_neg htg, hr]
    have : tagIs t (.elem tg attrs cs) = false := by
      simp [tagIs, htg]
    simp [elemsL, List.find?_append, this, ← ihcs, hr, ihns]

theorem findAllTag_eq_filter (t : String) (ns : HNodeList) :
    findAllTag t ns = (elemsL ns).filter (tagIs t) := by
  induction ns using findAllTag.induct t with
  | case1 => rfl
  | case2 s ns ih => simpa [findAllTag, elemsL] using ih
  | case3 tg attrs cs ns ihcs ihns =>
    rw [show findAllTag t (.cons (.elem tg attrs cs) ns) =
        (if tg = t then [HNode.elem tg attrs cs] else []) ++
          findAllTag t cs ++ findAllTag t ns from rfl]
    rw [ihcs, ihns]
    by_cases h : tg = t
    · simp [elemsL, List.filter_append, tagIs, h]
    · simp [elemsL, List.filter_append, tagIs, h]

theorem find?_isNone_eq_not_any {α : Type} (p : α → Bool) (l : List α) :
    (l.find? p).isNone = !(l.any p) := by
  induction l with
  | nil => rfl
  | cons x xs ih =>
    by_cases h : p x = true
    · simp [List.find?_cons, h]
    · simp only [Bool.not_eq_true] at h
      simp [List.find?_cons, h, ih]

/-- Claim C7: for every article document the extracted content equals the
concatenation, with no separator, of the text of every paragraph that is a
descendant of the first article container, excluding paragraphs containing
a strong element (stated through the independent specArticleContent
reading of the contract); with no article container the content is absent,
not an empty string; and the document
article(p(Content), p(strong(Not this))) yields exactly Content. -/
theorem claim_C7_article_content :
    (∀ doc : HNodeList, get_article_content doc = specArticleContent doc) ∧
    get_article_content exArticleDoc = some "Content".toList ∧
    get_article_content noArticleDoc = none := by
  refine ⟨fun doc => ?_, by rfl, by rfl⟩
  unfold get_article_content specArticleContent
  rw [findTag_eq_find]
  cases h : (elemsL doc).find? (tagIs "article") with
  | none => rfl
  | some art =>
    simp only [Option.map_some']
    have he : ((findAllTag "p" (childrenOf art)).filter fun p =>
        (findTag "strong" (childrenOf p)).isNone) =
        (((elemsL (childrenOf art)).filter (tagIs "p")).filter fun p =>
          !((elemsL (childrenOf p)).any (tagIs "strong"))) := by
      rw [findAllTag_eq_filter]
      apply List.filter_congr
      intro p _
      rw [findTag_eq_find]
      exact find?_isNone_eq_not_any _ _
    rw [he]

theorem urlScan_map (resolve : List Char → List Char) (kw : List Char) :
    ∀ anchors : List HNode, urlScan resolve kw anchors =
      (urlScan (fun h => h) kw anchors).map (List.map resolve) := by
  intro anchors
  induction anchors with
  | nil => rfl
  | cons a rest ih =>
    cases ha : getAttr a "href" with
    | none => simp [urlScan, ha, Except.map]
    | some h =>
      cases hr : urlScan (fun h => h) kw rest with
      | error e =>
        have hv : urlScan resolve kw rest = .error e := by rw [ih, hr]; rfl
        simp [urlScan, ha, hv, hr, Except.map]
      | ok tl =>
        have hv : urlScan resolve kw rest = .ok (tl.map resolve) := by
          rw [ih, hr]; rfl
        simp [urlScan, ha, hv, hr, Except.map, apply_ite (List.map resolve)]

theorem boxScan_map (resolve : List Char → List Char) (kw : List Char) :
    ∀ boxes : List HNode, boxScan resolve kw boxes =
      (boxScan (fun h => h) kw boxes).map (List.map resolve) := by
  intro boxes
  induction boxes with
  | nil => rfl
  | cons b bs ih =>
    cases hu : urlScan (fun h => h) kw (findAllTag "a" (childrenOf b)) with
    | error e =>
      have hv : urlScan resolve kw (findAllTag "a" (childrenOf b)) =
          .error e := by rw [urlScan_map, hu]; rfl
      simp [boxScan, hv, hu, Except.map]
    | ok h1 =>
      have hv : urlScan resolve kw (findAllTag "a" (childrenOf b)) =
          .ok (h1.map resolve) := by rw [urlScan_map, hu]; rfl
      cases hb : boxScan (fun h => h) kw bs with
      | error e =>
        have hw : boxScan resolve kw bs = .error e := by rw [ih, hb]; rfl
        simp [boxScan, hv, hu, hb, hw, Except.map]
      | ok h2 =>
        have hw : boxScan resolve kw bs = .ok (h2.map resolve) := by
          rw [ih, hb]; rfl
        simp [boxScan, hv, hu, hb, hw, Except.map]

/-- Claim C2 (amended): in the collect_and_update_data variant every
qualifying href is resolved with urljoin against the base URL, and on the
example page the anchor milei-speech yields the URL-join result; the
monitor_website variant instead concatenates base and href, so the claim
as stated does not hold for it (see the counterexample). -/
theorem claim_C2_url_resolution :
    (∀ (doc : HNodeList) (base kw : List Char),
      Collect.get_discursos_urls doc base kw =
        (qualifyingHrefs doc kw).map (List.map (urljoinM base))) ∧
    (∀ (doc : HNodeList) (base kw : List Char),
      Monitor.get_discursos_urls doc base kw =
        (qualifyingHrefs doc kw).map (List.map (fun h => base ++ h))) ∧
    Collect.get_discursos_urls chainDocGood "http://example.com".toList
      "milei".toList =
      .ok [urljoinM "http://example.com".toList "milei-speech".toList] ∧
    urljoinM "http://example.com".toList "milei-speech".toList =
      "http://example.com/milei-speech".toList := by
  exact ⟨fun doc base kw => boxScan_map _ _ _,
    fun doc base kw => boxScan_map _ _ _, by rfl, by decide⟩

/-- Claim C2 counterexample: on a page whose article box holds an anchor
with href milei-speech and keyword milei, the monitor_website variant of
get_discursos_urls returns the naive concatenation of base URL and href,
which differs from the URL-join of the two, so the claim is false of that
cited variant. -/
theorem claim_C2_counterexample :
    Monitor.get_discursos_urls chainDocGood "http://example.com".toList
      "milei".toList = .ok ["http://example.commilei-speech".toList] ∧
    "http://example.commilei-speech".toList ≠
      urljoinM "http://example.com".toList "milei-speech".toList := by
  exact ⟨by rfl, by decide⟩

theorem urlScan_ok_of_href (resolve : List Char → List Char) (kw : List Char) :
    ∀ anchors : List HNode,
      (∀ a ∈ anchors, (getAttr a "href").isSome = true) →
      exceptIsOk (urlScan resolve kw anchors) = true := by
  intro anchors
  induction anchors with
  | nil => intro _; rfl
  | cons a rest ih =>
    intro h
    have ha := h a (by simp)
    cases hg : getAttr a "href" with
    | none => rw [hg] at ha; simp at ha
    | some hv =>
      have hrest := ih fun x hx => h x (by simp [hx])
      cases hr : urlScan resolve kw rest with
      | error e => rw [hr] at hrest; simp [exceptIsOk] at hrest
      | ok tl => simp [urlScan, hg, hr, exceptIsOk]

theorem boxScan_ok_of_href (resolve : List Char → List Char) (kw : List Char) :
    ∀ boxes : List HNode,
      (∀ b ∈ boxes, ∀ a ∈ findAllTag "a" (childrenOf b),
        (getAttr a "href").isSome = true) →
      exceptIsOk (boxScan resolve kw boxes) = true := by
  intro boxes
  induction boxes with
  | nil => intro _; rfl
  | cons b bs ih =>
    intro h
    have hb := urlScan_ok_of_href resolve kw (findAllTag "a" (childrenOf b))
      (h b (by simp))
    have hbs := ih fun x hx => h x (by simp [hx])
    cases hu : urlScan resolve kw (findAllTag "a" (childrenOf b)) with
    | error e => rw [hu] at hb; simp [exceptIsOk] at hb
    | ok h1 =>
      cases hc : boxScan resolve kw bs with
      | error e => rw [hc] at hbs; simp [exceptIsOk] at hbs
      | ok h2 => simp [boxScan, hu, hc, exceptIsOk]

/-- Claim C10: link discovery is total only under the precondition that
every anchor inside a matched article box carries an href attribute: on a
concrete index document whose matched box holds an anchor without href,
both variants raise AttributeError (keyword in None.lower()) instead of
skipping the anchor or returning a url list; and under the precondition
both variants return a url list. -/
theorem claim_C10_href_precondition :
    Collect.get_discursos_urls chainDocBad "http://example.com".toList
      "milei".toList = .error .attributeError ∧
    Monitor.get_discursos_urls chainDocBad "http://example.com".toList
      "milei".toList = .error .attributeError ∧
    (∀ (doc : HNodeList) (base kw : List Char),
      (∀ b ∈ select article_selector doc,
        ∀ a ∈ findAllTag "a" (childrenOf b),
          (getAttr a "href").isSome = true) →
      exceptIsOk (Collect.get_discursos_urls doc base kw) = true ∧
      exceptIsOk (Monitor.get_discursos_urls doc base kw) = true) := by
  refine ⟨by rfl, by rfl, fun doc base kw h => ⟨?_, ?_⟩⟩
  · exact boxScan_ok_of_href _ _ _ h
  · exact boxScan_ok_of_href _ _ _ h

/-- Claim C10 witness: the precondition and conclusion at the concrete
good index page. -/
theorem claim_C10_href_precondition_witness :
    exceptIsOk (Collect.get_discursos_urls chainDocGood
      "http://example.com".toList "milei".toList) = true ∧
    exceptIsOk (Monitor.get_discursos_urls chainDocGood
      "http://example.com".toList "milei".toList) = true :=
  claim_C10_href_precondition.2.2 chainDocGood
    "http://example.com".toList "milei".toList (by decide)

/-- Claim C1 (code bug evidence): the date normalizer is supposed never to
raise, returning absent for an absent time element and for a failed parse;
but the collect variant raises AttributeError when the time element is
absent (it binds np.nan and then calls .split() on it, although the
np.nan assignment shows the absent case was meant to be handled), and the
monitor variant raises ValueError when the parse fails (its strptime call
sits outside any try block, although the spec and the sibling variant
catch it).  Each variant handles correctly exactly the case the other
raises on. -/
theorem claim_C1_get_date_never_raises :
    Collect.get_date docNoTime = .error .attributeError ∧
    Monitor.get_date docBadDate = .error .valueError ∧
    Collect.get_date docBadDate = .ok none ∧
    Monitor.get_date docNoTime = .ok none :=
  ⟨rfl, rfl, rfl, rfl⟩

theorem colsOf_spec (fetch : List Char → Option HNodeList) :
    ∀ urls : List (List Char),
      (∀ u ∈ urls, ((fetch u).all Collect.dateOk) = true) →
      Collect.colsOf fetch urls = .ok
        ((urls.filterMap (Collect.recOf fetch)).map (·.title),
         (urls.filterMap (Collect.recOf fetch)).map (·.content),
         (urls.filterMap (Collect.recOf fetch)).map (·.date),
         (urls.filterMap (Collect.recOf fetch)).map (·.url)) := by
  intro urls
  induction urls with
  | nil => intro _; rfl
  | cons u rest ih =>
    intro h
    have hrest := ih fun x hx => h x (by simp [hx])
    cases hf : fetch u with
    | none =>
      simp [Collect.colsOf, hf, hrest, List.filterMap_cons, Collect.recOf]
    | some ns =>
      have hok : Collect.dateOk ns = true := by
        have := h u (by simp)
        rw [hf] at this
        simpa [Option.all] using this
      cases hd : Collect.get_date ns with
      | error e => rw [Collect.dateOk, hd] at hok; simp at hok
      | ok dd =>
        have hval : Collect.dateVal ns = dd := by rw [Collect.dateVal, hd]
        simp [Collect.colsOf, hf, hd, hrest, List.filterMap_cons,
          Collect.recOf, hval]

theorem zip4_maps (l : List SpeechRec) :
    Collect.zip4 (l.map (·.title)) (l.map (·.content)) (l.map (·.date))
      (l.map (·.url)) = l := by
  induction l with
  | nil => rfl
  | cons r rest ih => simp [Collect.zip4, ih]

theorem monitor_create_data_spec (fetch : List Char → Option HNodeList) :
    ∀ urls : List (List Char),
      (∀ u ∈ urls, ((fetch u).all Monitor.dateOk) = true) →
      Monitor.create_data urls fetch =
        .ok (urls.filterMap (Monitor.recOf fetch)) := by
  intro urls
  induction urls with
  | nil => intro _; rfl
  | cons u rest ih =>
    intro h
    have hrest := ih fun x hx => h x (by simp [hx])
    rw [Monitor.create_data] at hrest ⊢
    have hz : (u :: rest).zip ((u :: rest).map fetch) =
        (u, fetch u) :: rest.zip (rest.map fetch) := by simp
    rw [hz]
    cases hf : fetch u with
    | none =>
      simp [Monitor.createGo, hrest, List.filterMap_cons, Monitor.recOf, hf]
    | some ns =>
      have hok : Monitor.dateOk ns = true := by
        have := h u (by simp)
        rw [hf] at this
        simpa [Option.all] using this
      cases hd : Monitor.get_date ns with
      | error e => rw [Monitor.dateOk, hd] at hok; simp at hok
      | ok dd =>
        have hval : Monitor.dateVal ns = dd := by rw [Monitor.dateVal, hd]
        simp [Monitor.createGo, hf, hd, hrest, List.filterMap_cons,
          Monitor.recOf, hval]

/-- Claim C8: in both batch-assembly steps (sequential create_dataframe
and concurrent create_data) a failed fetch never aborts the batch: the
result is exactly one record per url whose fetch succeeded, in input
order, each built from the document fetched for precisely that url and
carrying that url (the filterMap form makes omission and pairing
explicit).  The hypothesis that the date extraction does not raise on the
fetched documents scopes the statement to fetch failures, the subject of
the claim. -/
theorem claim_C8_fetch_failure_isolated :
    ∀ (urls : List (List Char)) (fetch : List Char → Option HNodeList),
      ((∀ u ∈ urls, ((fetch u).all Collect.dateOk) = true) →
        Collect.create_dataframe urls fetch =
          .ok (urls.filterMap (Collect.recOf fetch))) ∧
      ((∀ u ∈ urls, ((fetch u).all Monitor.dateOk) = true) →
        Monitor.create_data urls fetch =
          .ok (urls.filterMap (Monitor.recOf fetch))) := by
  intro urls fetch
  constructor
  · intro h
    rw [Collect.create_dataframe, colsOf_spec fetch urls h]
    simp [zip4_maps]
  · exact monitor_create_data_spec fetch urls

/-- Claim C8 witness: with a fetch oracle failing exactly on the url bad,
the batch over a, bad, b yields the records for a and b, in order, paired
with their urls. -/
theorem claim_C8_fetch_failure_isolated_witness :
    Collect.create_dataframe ["a".toList, "bad".toList, "b".toList] fetchB =
      .ok [recA, recB] ∧
    Monitor.create_data ["a".toList, "bad".toList, "b".toList] fetchB =
      .ok [recA, recB] := by
  have h := claim_C8_fetch_failure_isolated
    ["a".toList, "bad".toList, "b".toList] fetchB
  refine ⟨?_, ?_⟩
  · rw [h.1 (by decide)]; rfl
  · rw [h.2 (by decide)]; rfl

theorem collect_create_ok (fetch : List Char → Option HNodeList)
    (urls : List (List Char))
    (h : ∀ u ∈ urls, ((fetch u).all Collect.dateOk) = true) :
    Collect.create_dataframe urls fetch =
      .ok (urls.filterMap (Collect.recOf fetch)) := by
  rw [Collect.create_dataframe, colsOf_spec fetch urls h]
  simp [zip4_maps]

theorem urlsOf_filterMap_collect (fetch : List Char → Option HNodeList)
    (urls : List (List Char)) :
    urlsOf (urls.filterMap (Collect.recOf fetch)) =
      urls.filter fun u => (fetch u).isSome := by
  induction urls with
  | nil => rfl
  | cons u rest ih =>
    simp only [urlsOf] at ih
    cases hf : fetch u with
    | none => simp [List.filterMap_cons, Collect.recOf, hf, urlsOf, ih]
    | some ns => simp [List.filterMap_cons, Collect.recOf, hf, urlsOf, ih]

theorem urlsOf_filterMap_monitor (fetch : List Char → Option HNodeList)
    (urls : List (List Char)) :
    urlsOf (urls.filterMap (Monitor.recOf fetch)) =
      urls.filter fun u => (fetch u).isSome := by
  induction urls with
  | nil => rfl
  | cons u rest ih =>
    simp only [urlsOf] at ih
    cases hf : fetch u with
    | none => simp [List.filterMap_cons, Monitor.recOf, hf, urlsOf, ih]
    | some ns => simp [List.filterMap_cons, Monitor.recOf, hf, urlsOf, ih]

theorem sortByDateDesc_perm (l : List SpeechRec) : (sortByDateDesc l).Perm l :=
  List.perm_insertionSort _ l

theorem collect_merge_eq (store : List SpeechRec) (current : List (List Char))
    (fetch : List Char → Option HNodeList)
    (h : ∀ u, ((fetch u).all Collect.dateOk) = true) :
    Collect.mergeStep store current fetch =
      .ok (sortByDateDesc (store ++
        (Collect.check_csv_exists_and_fetch_missing (urlsOf store)
          current).filterMap (Collect.recOf fetch))) := by
  rw [Collect.mergeStep, collect_create_ok fetch _ (fun u _ => h u)]

theorem monitor_merge_eq (store : List SpeechRec) (current : List (List Char))
    (fetch : List Char → Option HNodeList)
    (h : ∀ u, ((fetch u).all Monitor.dateOk) = true) :
    Monitor.mergeStep store current fetch =
      .ok (store ++ (Monitor.newUrlsOf (urlsOf store) current).filterMap
        (Monitor.recOf fetch)) := by
  rw [Monitor.mergeStep, monitor_create_data_spec fetch _ (fun u _ => h u)]

theorem collect_idem (store : List SpeechRec) (current : List (List Char))
    (fetch : List Char → Option HNodeList)
    (h : ∀ u, ((fetch u).all Collect.dateOk) = true)
    (hst : (urlsOf store).Nodup) :
    ∃ s1 s2, Collect.mergeStep store current fetch = .ok s1 ∧
      Collect.mergeStep s1 current fetch = .ok s2 ∧
      s2.length = s1.length ∧ (urlsOf s1).Nodup ∧ (urlsOf s2).Nodup := by
  have hm1 := collect_merge_eq store current fetch h
  have hpm : (urlsOf (sortByDateDesc (store ++
      (Collect.check_csv_exists_and_fetch_missing (urlsOf store)
        current).filterMap (Collect.recOf fetch)))).Perm
      (urlsOf store ++
        (Collect.check_csv_exists_and_fetch_missing (urlsOf store)
          current).filter fun u => (fetch u).isSome) := by
    have hp := (sortByDateDesc_perm (store ++
      (Collect.check_csv_exists_and_fetch_missing (urlsOf store)
        current).filterMap (Collect.recOf fetch))).map fun r => r.url
    have he : (store ++
        (Collect.check_csv_exists_and_fetch_missing (urlsOf store)
          current).filterMap (Collect.recOf fetch)).map (fun r => r.url) =
        urlsOf store ++
          (Collect.check_csv_exists_and_fetch_missing (urlsOf store)
            current).filter fun u => (fetch u).isSome := by
      rw [List.map_append]
      have := urlsOf_filterMap_collect fetch
        (Collect.check_csv_exists_and_fetch_missing (urlsOf store) current)
      rw [urlsOf] at this
      rw [this]
      rfl
    rw [he] at hp
    exact hp
  have hΔnodup : (Collect.check_csv_exists_and_fetch_missing (urlsOf store)
      current).Nodup := (List.nodup_dedup current).filter _
  have hdisj : List.Disjoint (urlsOf store)
      ((Collect.check_csv_exists_and_fetch_missing (urlsOf store)
        current).filter fun u => (fetch u).isSome) := by
    intro a ha hafil
    have haf := (List.mem_filter.mp hafil).1
    rw [Collect.check_csv_exists_and_fetch_missing] at haf
    exact (of_decide_eq_true (List.mem_filter.mp haf).2) ha
  have hn1 : (urlsOf (sortByDateDesc (store ++
      (Collect.check_csv_exists_and_fetch_missing (urlsOf store)
        current).filterMap (Collect.recOf fetch)))).Nodup :=
    hpm.nodup_iff.mpr (hst.append (hΔnodup.filter _) hdisj)
  have hm2 := collect_merge_eq (sortByDateDesc (store ++
    (Collect.check_csv_exists_and_fetch_missing (urlsOf store)
      current).filterMap (Collect.recOf fetch))) current fetch h
  have hnil : (Collect.check_csv_exists_and_fetch_missing
      (urlsOf (sortByDateDesc (store ++
        (Collect.check_csv_exists_and_fetch_missing (urlsOf store)
          current).filterMap (Collect.recOf fetch)))) current).filterMap
      (Collect.recOf fetch) = [] := by
    rw [List.filterMap_eq_nil]
    intro u hu
    rw [Collect.check_csv_exists_and_fetch_missing] at hu
    obtain ⟨hud, hdec⟩ := List.mem_filter.mp hu
    have hnotin := of_decide_eq_true hdec
    have hnot2 : u ∉ urlsOf store ++
        (Collect.check_csv_exists_and_fetch_missing (urlsOf store)
          current).filter fun u => (fetch u).isSome :=
      fun hc => hnotin (hpm.mem_iff.mpr hc)
    rw [List.mem_append] at hnot2
    push_neg at hnot2
    obtain ⟨hns, hnf⟩ := hnot2
    cases hf : fetch u with
    | none => simp [Collect.recOf, hf]
    | some ns =>
      exfalso
      apply hnf
      apply List.mem_filter.mpr
      refine ⟨?_, by simp [hf]⟩
      rw [Collect.check_csv_exists_and_fetch_missing]
      exact List.mem_filter.mpr ⟨hud, decide_eq_true hns⟩
  refine ⟨_, sortByDateDesc (sortByDateDesc (store ++
    (Collect.check_csv_exists_and_fetch_missing (urlsOf store)
      current).filterMap (Collect.recOf fetch))), hm1, ?_, ?_, hn1, ?_⟩
  · rw [hm2, hnil, List.append_nil]
  · exact (sortByDateDesc_perm _).length_eq
  · exact ((sortByDateDesc_perm _).map _).nodup_iff.mpr hn1

theorem monitor_idem (store : List SpeechRec) (current : List (List Char))
    (fetch : List Char → Option HNodeList)
    (h : ∀ u, ((fetch u).all Monitor.dateOk) = true)
    (hst : (urlsOf store).Nodup) (hcur : current.Nodup) :
    ∃ t1 t2, Monitor.mergeStep store current fetch = .ok t1 ∧
      Monitor.mergeStep t1 current fetch = .ok t2 ∧
      t2.length = t1.length ∧ (urlsOf t1).Nodup ∧ (urlsOf t2).Nodup := by
  have hm1 := monitor_merge_eq store current fetch h
  have hu1 : urlsOf (store ++ (Monitor.newUrlsOf (urlsOf store)
      current).filterMap (Monitor.recOf fetch)) =
      urlsOf store ++ (Monitor.newUrlsOf (urlsOf store) current).filter
        fun u => (fetch u).isSome := by
    rw [urlsOf, List.map_append]
    have := urlsOf_filterMap_monitor fetch
      (Monitor.newUrlsOf (urlsOf store) current)
    rw [urlsOf] at this
    rw [this]
    rfl
  have hΔnodup : (Monitor.newUrlsOf (urlsOf store) current).Nodup :=
    hcur.filter _
  have hdisj : List.Disjoint (urlsOf store)
      ((Monitor.newUrlsOf (urlsOf store) current).filter
        fun u => (fetch u).isSome) := by
    intro a ha hafil
    have haf := (List.mem_filter.mp hafil).1
    rw [Monitor.newUrlsOf] at haf
    exact (of_decide_eq_true (List.mem_filter.mp haf).2) ha
  have hn1 : (urlsOf (store ++ (Monitor.newUrlsOf (urlsOf store)
      current).filterMap (Monitor.recOf fetch))).Nodup := by
    rw [hu1]
    exact hst.append (hΔnodup.filter _) hdisj
  have hm2 := monitor_merge_eq (store ++ (Monitor.newUrlsOf (urlsOf store)
    current).filterMap (Monitor.recOf fetch)) current fetch h
  have hnil : (Monitor.newUrlsOf (urlsOf (store ++
      (Monitor.newUrlsOf (urlsOf store) current).filterMap
        (Monitor.recOf fetch))) current).filterMap
      (Monitor.recOf fetch) = [] := by
    rw [List.filterMap_eq_nil]
    intro u hu
    rw [Monitor.newUrlsOf] at hu
    obtain ⟨hud, hdec⟩ := List.mem_filter.mp hu
    have hnotin := of_decide_eq_true hdec
    rw [hu1, List.mem_append] at hnotin
    push_neg at hnotin
    obtain ⟨hns, hnf⟩ := hnotin
    cases hf : fetch u with
    | none => simp [Monitor.recOf, hf]
    | some ns =>
      exfalso
      apply hnf
      apply List.mem_filter.mpr
      refine ⟨?_, by simp [hf]⟩
      rw [Monitor.newUrlsOf]
      exact List.mem_filter.mpr ⟨hud, decide_eq_true hns⟩
  refine ⟨_, store ++ (Monitor.newUrlsOf (urlsOf store)
    current).filterMap (Monitor.recOf fetch), hm1, ?_, rfl, hn1, hn1⟩
  rw [hm2, hnil, List.append_nil]

/-- Claim C3 (amended): provided the existing store has no duplicate urls
and the candidate listing has no internal duplicates, running the merge
step twice with the same candidate set succeeds under both strategies,
yields the same record count as running it once, and both the once-run and
twice-run stores are free of duplicate urls.  As stated the claim is false
of the append-only strategy, whose delta keeps within-page duplicates of
the candidate listing (see the counterexample), which forces the
duplicate-free hypotheses. -/
theorem claim_C3_merge_idempotence :
    ∀ (store : List SpeechRec) (current : List (List Char))
      (fetch : List Char → Option HNodeList),
      (∀ u, ((fetch u).all Collect.dateOk) = true) →
      (∀ u, ((fetch u).all Monitor.dateOk) = true) →
      (urlsOf store).Nodup → current.Nodup →
      exceptIsOk (Collect.mergeTwice store current fetch) = true ∧
      okLength (Collect.mergeTwice store current fetch) =
        okLength (Collect.mergeStep store current fetch) ∧
      okNodupUrls (Collect.mergeStep store current fetch) = true ∧
      okNodupUrls (Collect.mergeTwice store current fetch) = true ∧
      exceptIsOk (Monitor.mergeTwice store current fetch) = true ∧
      okLength (Monitor.mergeTwice store current fetch) =
        okLength (Monitor.mergeStep store current fetch) ∧
      okNodupUrls (Monitor.mergeStep store current fetch) = true ∧
      okNodupUrls (Monitor.mergeTwice store current fetch) = true := by
  intro store current fetch hC hM hst hcur
  obtain ⟨s1, s2, hc1, hc2, hcl, hcn1, hcn2⟩ :=
    collect_idem store current fetch hC hst
  obtain ⟨t1, t2, hm1, hm2, hml, hmn1, hmn2⟩ :=
    monitor_idem store current fetch hM hst hcur
  have hct : Collect.mergeTwice store current fetch = .ok s2 := by
    rw [Collect.mergeTwice, hc1]
    exact hc2
  have hmt : Monitor.mergeTwice store current fetch = .ok t2 := by
    rw [Monitor.mergeTwice, hm1]
    exact hm2
  refine ⟨?_, ?_, ?_, ?_, ?_, ?_, ?_, ?_⟩
  · rw [hct]; rfl
  · rw [hct, hc1, okLength, okLength, hcl]
  · rw [hc1, okNodupUrls, decide_eq_true_eq]; exact hcn1
  · rw [hct, okNodupUrls, decide_eq_true_eq]; exact hcn2
  · rw [hmt]; rfl
  · rw [hmt, hm1, okLength, okLength, hml]
  · rw [hm1, okNodupUrls, decide_eq_true_eq]; exact hmn1
  · rw [hmt, okNodupUrls, decide_eq_true_eq]; exact hmn2

/-- Claim C3 witness: the merge-twice properties at a concrete store,
candidate list and fetch oracle. -/
theorem claim_C3_merge_idempotence_witness :
    exceptIsOk (Collect.mergeTwice [recB] ["a".toList] fetchA) = true ∧
    okLength (Collect.mergeTwice [recB] ["a".toList] fetchA) =
      okLength (Collect.mergeStep [recB] ["a".toList] fetchA) ∧
    okNodupUrls (Collect.mergeStep [recB] ["a".toList] fetchA) = true ∧
    okNodupUrls (Collect.mergeTwice [recB] ["a".toList] fetchA) = true ∧
    exceptIsOk (Monitor.mergeTwice [recB] ["a".toList] fetchA) = true ∧
    okLength (Monitor.mergeTwice [recB] ["a".toList] fetchA) =
      okLength (Monitor.mergeStep [recB] ["a".toList] fetchA) ∧
    okNodupUrls (Monitor.mergeStep [recB] ["a".toList] fetchA) = true ∧
    okNodupUrls (Monitor.mergeTwice [recB] ["a".toList] fetchA) = true :=
  claim_C3_merge_idempotence [recB] ["a".toList] fetchA
    (fun _ => (by decide : (Option.all Collect.dateOk (some docDated)) = true))
    (fun _ => (by decide : (Option.all Monitor.dateOk (some docDated)) = true))
    (by decide) (by decide)

/-- Claim C3 counterexample: from an empty store and the candidate listing
a, a (the same qualifying url discovered twice on one page, which link
discovery is specified to keep), the append-only merge of monitor_website
writes the record for a twice; running it again changes nothing, so under
repeated runs the persisted store is not free of duplicate urls and the
claim as stated is false. -/
theorem claim_C3_counterexample :
    Monitor.mergeStep [] ["a".toList, "a".toList] fetchA =
      .ok [recA, recA] ∧
    Monitor.mergeStep [recA, recA] ["a".toList, "a".toList] fetchA =
      .ok [recA, recA] ∧
    ¬ (urlsOf [recA, recA]).Nodup := by
  exact ⟨by rfl, by rfl, by decide⟩

/-- Claim C4 (amended): on the monitor_website driver no record is ever
deleted on any path, and on the collect_and_update_data driver every
existing record survives the run whenever the new-url delta is non-empty;
the claim as stated is false because the empty-delta path of the collect
driver rewrites the store from a full refetch, which drops records whose
urls are no longer listed (see the counterexample). -/
theorem claim_C4_no_deletion :
    (∀ (store : List SpeechRec) (current : List (List Char))
       (fetch : List Char → Option HNodeList) (res : List SpeechRec),
      Monitor.main_async store current fetch = .ok res →
      ∀ r ∈ store, r ∈ res) ∧
    (∀ (s : List SpeechRec) (current : List (List Char))
       (fetch : List Char → Option HNodeList) (res : List SpeechRec),
      Collect.main_run (some s) current fetch = .ok res →
      Collect.check_csv_exists_and_fetch_missing (urlsOf s) current ≠ [] →
      ∀ r ∈ s, r ∈ res) := by
  constructor
  · intro store current fetch res hres r hr
    simp only [Monitor.main_async.eq_def] at hres
    by_cases he : (Monitor.newUrlsOf (urlsOf store) current).isEmpty = true
    · rw [if_pos he] at hres
      cases hres
      exact hr
    · rw [if_neg he] at hres
      cases hd : Monitor.create_data (Monitor.newUrlsOf (urlsOf store)
          current) fetch with
      | error e => rw [hd] at hres; cases hres
      | ok d =>
        rw [hd] at hres
        cases hres
        exact List.mem_append_left _ hr
  · intro s current fetch res hres hne r hr
    simp only [Collect.main_run.eq_def] at hres
    have he : (Collect.check_csv_exists_and_fetch_missing (urlsOf s)
        current).isEmpty = false := by
      rw [List.isEmpty_eq_false]
      exact hne
    rw [he] at hres
    simp only [Bool.false_eq_true, if_false] at hres
    cases hd : Collect.create_dataframe (Collect.check_csv_exists_and_fetch_missing
        (urlsOf s) current) fetch with
    | error e => rw [hd] at hres; cases hres
    | ok nd =>
      rw [hd] at hres
      cases hres
      exact ((sortByDateDesc_perm _).mem_iff).mpr (List.mem_append_left _ hr)

/-- Claim C4 witness: the preservation conclusions at a concrete store and
run with a non-empty delta, under each driver. -/
theorem claim_C4_no_deletion_witness :
    recOldB ∈ [recOldB, recA] ∧ recOldB ∈ [recA, recOldB] :=
  ⟨claim_C4_no_deletion.1 [recOldB] ["a".toList] fetchA [recOldB, recA]
      (by rfl) recOldB (by decide),
   claim_C4_no_deletion.2 [recOldB] ["a".toList] fetchA [recA, recOldB]
      (by rfl) (by decide) recOldB (by decide)⟩

/-- Claim C4 counterexample: a store holding records for the urls b and a,
with only b still listed, has an empty delta; the collect driver then
rewrites the store from a full refetch and both previously stored records
are gone, so the claim that no record is ever deleted on any control path
is false. -/
theorem claim_C4_counterexample :
    Collect.main_run (some [recOldB, recA]) ["b".toList] fetchA =
      .ok [recB] ∧
    recOldB ∈ [recOldB, recA] ∧ recOldB ∉ [recB] := by
  exact ⟨by rfl, by decide, by decide⟩

/-- Claim C9 (amended): the collect_and_update_data driver runs the merge
on exactly the delta when the delta is non-empty and performs a full
refetch, writing a fresh store, when the delta is empty; the
monitor_website driver runs the merge on exactly the delta when it is
non-empty but on an empty delta only logs and leaves the store untouched,
so the full-resync fallback asserted by the claim is false of that
variant (see the counterexample). -/
theorem claim_C9_driver_paths :
    (∀ (store : Option (List SpeechRec)) (current : List (List Char))
       (fetch : List Char → Option HNodeList),
      Collect.check_csv_exists_and_fetch_missing
        (match store with | none => [] | some s => urlsOf s) current = [] →
      Collect.main_run store current fetch =
        Collect.create_dataframe current fetch) ∧
    (∀ (s : List SpeechRec) (current : List (List Char))
       (fetch : List Char → Option HNodeList),
      Collect.check_csv_exists_and_fetch_missing (urlsOf s) current ≠ [] →
      Collect.main_run (some s) current fetch =
        Collect.mergeStep s current fetch) ∧
    (∀ (store : List SpeechRec) (current : List (List Char))
       (fetch : List Char → Option HNodeList),
      Monitor.newUrlsOf (urlsOf store) current = [] →
      Monitor.main_async store current fetch = .ok store) ∧
    (∀ (store : List SpeechRec) (current : List (List Char))
       (fetch : List Char → Option HNodeList),
      Monitor.newUrlsOf (urlsOf store) current ≠ [] →
      Monitor.main_async store current fetch =
        Monitor.mergeStep store current fetch) := by
  refine ⟨?_, ?_, ?_, ?_⟩
  · intro store current fetch h
    simp only [Collect.main_run.eq_def]
    rw [h]
    rfl
  · intro s current fetch h
    have he : (Collect.check_csv_exists_and_fetch_missing (urlsOf s)
        current).isEmpty = false := by
      rw [List.isEmpty_eq_false]
      exact h
    simp only [Collect.main_run.eq_def]
    rw [he]
    simp only [Bool.false_eq_true, if_false]
    rw [Collect.mergeStep.eq_def]
  · intro store current fetch h
    simp only [Monitor.main_async.eq_def]
    rw [h]
    rfl
  · intro store current fetch h
    have he : (Monitor.newUrlsOf (urlsOf store) current).isEmpty = false := by
      rw [List.isEmpty_eq_false]
      exact h
    simp only [Monitor.main_async.eq_def]
    rw [he]
    simp only [Bool.false_eq_true, if_false]
    rw [Monitor.mergeStep.eq_def]

/-- Claim C9 witness: each control path at a concrete store and listing. -/
theorem claim_C9_driver_paths_witness :
    Collect.main_run (some [recA]) ["a".toList] fetchA =
      Collect.create_dataframe ["a".toList] fetchA ∧
    Collect.main_run (some [recOldB]) ["a".toList] fetchA =
      Collect.mergeStep [recOldB] ["a".toList] fetchA ∧
    Monitor.main_async [recA] ["a".toList] fetchA = .ok [recA] ∧
    Monitor.main_async [recOldB] ["a".toList] fetchA =
      Monitor.mergeStep [recOldB] ["a".toList] fetchA :=
  ⟨claim_C9_driver_paths.1 (some [recA]) ["a".toList] fetchA (by decide),
   claim_C9_driver_paths.2.1 [recOldB] ["a".toList] fetchA (by decide),
   claim_C9_driver_paths.2.2.1 [recA] ["a".toList] fetchA (by decide),
   claim_C9_driver_paths.2.2.2 [recOldB] ["a".toList] fetchA (by decide)⟩

/-- Claim C9 counterexample: with an empty delta the monitor_website
driver returns the store unchanged, while a full refetch of the listed
urls would produce a different store, so the asserted fallback
full-resync path is false of that cited driver. -/
theorem claim_C9_counterexample :
    Monitor.main_async [recOldB] ["b".toList] fetchA = .ok [recOldB] ∧
    Monitor.create_data ["b".toList] fetchA = .ok [recB] ∧
    ([recOldB] : List SpeechRec) ≠ [recB] := by
  exact ⟨by rfl, by rfl, by decide⟩

theorem digit_not_ws {c : Char} (h : isDigitC c = true) : isWsC c = false := by
  simp only [isDigitC, Bool.and_eq_true, decide_eq_true_eq] at h
  simp only [isWsC, Bool.or_eq_false_iff, decide_eq_false_iff_not]
  omega

theorem alpha_not_ws {c : Char} (h : isLowerAlphaC c = true) :
    isWsC c = false := by
  simp only [isLowerAlphaC, Bool.and_eq_true, decide_eq_true_eq] at h
  simp only [isWsC, Bool.or_eq_false_iff, decide_eq_false_iff_not]
  omega

theorem monthName_ne_nil (m : Nat) (hm1 : 1 ≤ m) (hm2 : m ≤ 12) :
    monthName m ≠ [] := by
  interval_cases m <;> decide

theorem monthName_alpha (m : Nat) (hm1 : 1 ≤ m) (hm2 : m ≤ 12) :
    ∀ c ∈ monthName m, isLowerAlphaC c = true := by
  interval_cases m <;> decide

theorem monthNum_digits (m : Nat) (hm1 : 1 ≤ m) (hm2 : m ≤ 12) :
    ∀ c ∈ monthNum m, isDigitC c = true := by
  interval_cases m <;> decide

theorem pyReplace_single_not_mem (s : List Char) (c : Char) (rep : List Char)
    (h : c ∉ s) : pyReplace s [c] rep = s := by
  have hh := pyReplace_append_of_no_match s [] [c] rep (by simp) ?nm
  · rw [List.append_nil] at hh
    rw [hh, pyReplace_nil, List.append_nil]
  case nm =>
    intro p q hpq hq
    rcases q with _ | ⟨x, q⟩
    · exact absurd rfl hq
    have hx : x ∈ s := by rw [hpq]; simp
    have hcx : (c == x) = false := by
      refine beq_eq_false_iff_ne.mpr fun he => h ?_
      rw [he]; exact hx
    simp [List.isPrefixOf, hcx]

theorem stripCRLF_of_no_crlf (s : List Char) (h1 : '\r' ∉ s)
    (h2 : '\n' ∉ s) : stripCRLF s = s := by
  rw [stripCRLF, pyReplace_single_not_mem s '\r' [] h1,
    pyReplace_single_not_mem s '\n' [] h2]

theorem mem_mkRaw_cases {c : Char} {dow dStr name yStr : List Char}
    (h : c ∈ mkRawDate dow dStr name yStr) :
    c ∈ dow ∨ c = ' ' ∨ c = 'd' ∨ c = 'e' ∨ c ∈ dStr ∨ c ∈ name ∨
      c ∈ yStr := by
  rw [mkRawDate] at h
  rcases List.mem_append.mp h with h1 | h2
  · exact Or.inl h1
  rcases List.mem_cons.mp h2 with rfl | h3
  · exact Or.inr (Or.inl rfl)
  rcases List.mem_append.mp h3 with h4 | h5
  · exact Or.inr (Or.inr (Or.inr (Or.inr (Or.inl h4))))
  rcases List.mem_append.mp h5 with h6 | h7
  · rw [deSp] at h6
    rcases List.mem_cons.mp h6 with rfl | h6a
    · exact Or.inr (Or.inl rfl)
    rcases List.mem_cons.mp h6a with rfl | h6b
    · exact Or.inr (Or.inr (Or.inl rfl))
    rcases List.mem_cons.mp h6b with rfl | h6c
    · exact Or.inr (Or.inr (Or.inr (Or.inl rfl)))
    rcases List.mem_cons.mp h6c with rfl | h6d
    · exact Or.inr (Or.inl rfl)
    · exact absurd h6d (List.not_mem_nil c)
  rcases List.mem_append.mp h7 with h8 | h9
  · exact Or.inr (Or.inr (Or.inr (Or.inr (Or.inr (Or.inl h8)))))
  rcases List.mem_append.mp h9 with h10 | h11
  · rw [deSp] at h10
    rcases List.mem_cons.mp h10 with rfl | h10a
    · exact Or.inr (Or.inl rfl)
    rcases List.mem_cons.mp h10a with rfl | h10b
    · exact Or.inr (Or.inr (Or.inl rfl))
    rcases List.mem_cons.mp h10b with rfl | h10c
    · exact Or.inr (Or.inr (Or.inr (Or.inl rfl)))
    rcases List.mem_cons.mp h10c with rfl | h10d
    · exact Or.inr (Or.inl rfl)
    · exact absurd h10d (List.not_mem_nil c)
  · exact Or.inr (Or.inr (Or.inr (Or.inr (Or.inr (Or.inr h11)))))

theorem stripCRLF_mkRaw (dow dStr name yStr : List Char)
    (hdow : ∀ c ∈ dow, isWsC c = false) (hd : ∀ c ∈ dStr, isWsC c = false)
    (hn : ∀ c ∈ name, isWsC c = false) (hy : ∀ c ∈ yStr, isWsC c = false) :
    stripCRLF (mkRawDate dow dStr name yStr) =
      mkRawDate dow dStr name yStr := by
  have key : ∀ c : Char, isWsC c = true → c ≠ ' ' →
      c ∉ mkRawDate dow dStr name yStr := by
    intro c hc hs hmem
    rcases mem_mkRaw_cases hmem with h | h | h | h | h | h | h
    · rw [hdow c h] at hc; exact Bool.false_ne_true hc
    · exact hs h
    · rw [h] at hc; exact absurd hc (by decide)
    · rw [h] at hc; exact absurd hc (by decide)
    · rw [hd c h] at hc; exact Bool.false_ne_true hc
    · rw [hn c h] at hc; exact Bool.false_ne_true hc
    · rw [hy c h] at hc; exact Bool.false_ne_true hc
  exact stripCRLF_of_no_crlf _ (key '\r' (by decide) (by decide))
    (key '\n' (by decide) (by decide))

theorem pySplitWs_de (rest : List Char) :
    pySplitWs ('d' :: 'e' :: ' ' :: rest) = ['d', 'e'] :: pySplitWs rest := by
  have h := pySplitWs_token ['d', 'e'] rest (by decide) (by decide)
  simpa using h

theorem dropDow_mkRaw (dow dStr name yStr : List Char)
    (hdow0 : dow ≠ []) (hdow : ∀ c ∈ dow, isWsC c = false)
    (hd0 : dStr ≠ []) (hd : ∀ c ∈ dStr, isWsC c = false)
    (hn0 : name ≠ []) (hn : ∀ c ∈ name, isWsC c = false)
    (hy0 : yStr ≠ []) (hy : ∀ c ∈ yStr, isWsC c = false) :
    dropDow (mkRawDate dow dStr name yStr) =
      dStr ++ (deSp ++ (name ++ (deSp ++ yStr))) := by
  show joinSp ((pySplitWs (dow ++ ' ' :: (dStr ++ ' ' ::
    ('d' :: 'e' :: ' ' :: (name ++ ' ' ::
      ('d' :: 'e' :: ' ' :: yStr)))))).drop 1) = _
  rw [pySplitWs_token dow _ hdow0 hdow]
  rw [pySplitWs_token dStr _ hd0 hd]
  rw [pySplitWs_de]
  rw [pySplitWs_token name _ hn0 hn]
  rw [pySplitWs_de]
  rw [pySplitWs_single yStr hy0 hy]
  show joinSp [dStr, ['d', 'e'], name, ['d', 'e'], yStr] = _
  simp [joinSp, deSp]

theorem foldl_replace_skip (entries : List (List Char × List Char))
    (D C Y : List Char)
    (hD : ∀ c ∈ D, isDigitC c = true) (hY : ∀ c ∈ Y, isDigitC c = true)
    (hent : ∀ e ∈ entries, e.1 ≠ [] ∧ (∀ c ∈ e.1, isLowerAlphaC c = true) ∧
      ∀ q ∈ C.tails, e.1.isPrefixOf q = false) :
    entries.foldl (fun acc p => pyReplace acc p.1 p.2) (D ++ (C ++ Y)) =
      D ++ (C ++ Y) := by
  induction entries with
  | nil => rfl
  | cons e es ih =>
    rw [List.foldl_cons]
    obtain ⟨h1, h2, h3⟩ := hent e (by simp)
    rw [subst_skip D C Y e.1 e.2 hD hY h1 h2 h3]
    exact ih fun x hx => hent x (by simp [hx])

theorem monthSubst_split (pre post : List (List Char × List Char))
    (name num D Y : List Char)
    (hsplit : month_map = pre ++ (name, num) :: post)
    (hD : ∀ c ∈ D, isDigitC c = true) (hY : ∀ c ∈ Y, isDigitC c = true)
    (hpre : ∀ e ∈ pre, e.1 ≠ [] ∧ (∀ c ∈ e.1, isLowerAlphaC c = true) ∧
      ∀ q ∈ (deSp ++ (name ++ deSp)).tails, e.1.isPrefixOf q = false)
    (hname : name ≠ []) (halpha : ∀ c ∈ name, isLowerAlphaC c = true)
    (h1 : ∀ q ∈ deSp.tails, q ≠ [] →
      name.isPrefixOf (q ++ (name ++ deSp)) = false)
    (h2 : ∀ q ∈ deSp.tails, q ≠ [] → name.isPrefixOf q = false)
    (hpost : ∀ e ∈ post, e.1 ≠ [] ∧ (∀ c ∈ e.1, isLowerAlphaC c = true) ∧
      ∀ q ∈ (deSp ++ (num ++ deSp)).tails, e.1.isPrefixOf q = false) :
    monthSubst (D ++ (deSp ++ (name ++ (deSp ++ Y)))) =
      D ++ (deSp ++ (num ++ (deSp ++ Y))) := by
  rw [monthSubst, hsplit, List.foldl_append]
  have ha1 : D ++ (deSp ++ (name ++ (deSp ++ Y))) =
      D ++ ((deSp ++ (name ++ deSp)) ++ Y) := by simp [List.append_assoc]
  rw [ha1, foldl_replace_skip pre D (deSp ++ (name ++ deSp)) Y hD hY hpre]
  have hhit : pyReplace (D ++ ((deSp ++ (name ++ deSp)) ++ Y)) name num =
      D ++ ((deSp ++ (num ++ deSp)) ++ Y) := by
    have hs := subst_hit D Y name num hD hY hname halpha h1 h2
    have e1 : D ++ ((deSp ++ (name ++ deSp)) ++ Y) =
        D ++ (deSp ++ (name ++ (deSp ++ Y))) := by simp [List.append_assoc]
    have e2 : D ++ ((deSp ++ (num ++ deSp)) ++ Y) =
        D ++ (deSp ++ (num ++ (deSp ++ Y))) := by simp [List.append_assoc]
    rw [e1, e2, hs]
  rw [List.foldl_cons]
  rw [show pyReplace (D ++ ((deSp ++ (name ++ deSp)) ++ Y)) name num =
    D ++ ((deSp ++ (num ++ deSp)) ++ Y) from hhit]
  rw [foldl_replace_skip post D (deSp ++ (num ++ deSp)) Y hD hY hpost]
  simp [List.append_assoc]

theorem monthSubst_mk (D Y : List Char) (m : Nat) (hm1 : 1 ≤ m)
    (hm2 : m ≤ 12) (hD : ∀ c ∈ D, isDigitC c = true)
    (hY : ∀ c ∈ Y, isDigitC c = true) :
    monthSubst (D ++ (deSp ++ (monthName m ++ (deSp ++ Y)))) =
      D ++ (deSp ++ (monthNum m ++ (deSp ++ Y))) := by
  interval_cases m
  · exact monthSubst_split (month_map.take 0) (month_map.drop 1)
      (monthName 1) (monthNum 1) D Y (by rfl) hD hY (by decide) (by decide)
      (by decide) (by decide) (by decide) (by decide)
  · exact monthSubst_split (month_map.take 1) (month_map.drop 2)
      (monthName 2) (monthNum 2) D Y (by rfl) hD hY (by decide) (by decide)
      (by decide) (by decide) (by decide) (by decide)
  · exact monthSubst_split (month_map.take 2) (month_map.drop 3)
      (monthName 3) (monthNum 3) D Y (by rfl) hD hY (by decide) (by decide)
      (by decide) (by decide) (by decide) (by decide)
  · exact monthSubst_split (month_map.take 3) (month_map.drop 4)
      (monthName 4) (monthNum 4) D Y (by rfl) hD hY (by decide) (by decide)
      (by decide) (by decide) (by decide) (by decide)
  · exact monthSubst_split (month_map.take 4) (month_map.drop 5)
      (monthName 5) (monthNum 5) D Y (by rfl) hD hY (by decide) (by decide)
      (by decide) (by decide) (by decide) (by decide)
  · exact monthSubst_split (month_map.take 5) (month_map.drop 6)
      (monthName 6) (monthNum 6) D Y (by rfl) hD hY (by decide) (by decide)
      (by decide) (by decide) (by decide) (by decide)
  · exact monthSubst_split (month_map.take 6) (month_map.drop 7)
      (monthName 7) (monthNum 7) D Y (by rfl) hD hY (by decide) (by decide)
      (by decide) (by decide) (by decide) (by decide)
  · exact monthSubst_split (month_map.take 7) (month_map.drop 8)
      (monthName 8) (monthNum 8) D Y (by rfl) hD hY (by decide) (by decide)
      (by decide) (by decide) (by decide) (by decide)
  · exact monthSubst_split (month_map.take 8) (month_map.drop 9)
      (monthName 9) (monthNum 9) D Y (by rfl) hD hY (by decide) (by decide)
      (by decide) (by decide) (by decide) (by decide)
  · exact monthSubst_split (month_map.take 9) (month_map.drop 10)
      (monthName 10) (monthNum 10) D Y (by rfl) hD hY (by decide) (by decide)
      (by decide) (by decide) (by decide) (by decide)
  · exact monthSubst_split (month_map.take 10) (month_map.drop 11)
      (monthName 11) (monthNum 11) D Y (by rfl) hD hY (by decide) (by decide)
      (by decide) (by decide) (by decide) (by decide)
  · exact monthSubst_split (month_map.take 11) (month_map.drop 12)
      (monthName 12) (monthNum 12) D Y (by rfl) hD hY (by decide) (by decide)
      (by decide) (by decide) (by decide) (by decide)

theorem parseDayTok_append (dStr r : List Char) (d : Nat)
    (hd : parseDayTok dStr = some (d, [])) :
    parseDayTok (dStr ++ ' ' :: r) = some (d, ' ' :: r) := by
  rcases dStr with _ | ⟨c1, t1⟩
  · simp [parseDayTok] at hd
  rcases t1 with _ | ⟨c2, t2⟩
  · simp only [parseDayTok] at hd ⊢
    split_ifs at hd with h49
    simp only [Option.some.injEq, Prod.mk.injEq] at hd
    simp [hd.1, h49, isDigitC]
  rcases t2 with _ | ⟨c3, t3⟩
  · simp only [parseDayTok, List.cons_append, List.nil_append] at hd ⊢
    split_ifs at hd <;> simp_all
  · exfalso
    simp only [parseDayTok, List.cons_append] at hd
    split_ifs at hd <;> simp_all

theorem parseMonth_after (m : Nat) (hm1 : 1 ≤ m) (hm2 : m ≤ 12)
    (rest : List Char) :
    (monthNum m ++ rest).dropWhile (fun x => isWsC x) = monthNum m ++ rest ∧
    parseMonthTok (monthNum m ++ rest) = some (m, rest) := by
  interval_cases m <;> exact ⟨rfl, rfl⟩

theorem parseYear4_dropWhile (yStr : List Char) (y : Nat)
    (hy : parseYear4 yStr = some (y, [])) :
    yStr.dropWhile (fun x => isWsC x) = yStr := by
  rcases yStr with _ | ⟨a, _ | ⟨b, _ | ⟨c, _ | ⟨e, rst⟩⟩⟩⟩
  · simp [parseYear4] at hy
  · simp [parseYear4] at hy
  · simp [parseYear4] at hy
  · simp [parseYear4] at hy
  · simp only [parseYear4] at hy
    split_ifs at hy with hdig
    have ha : isDigitC a = true := by
      simp only [Bool.and_eq_true] at hdig
      exact hdig.1.1.1
    rw [List.dropWhile_cons, if_neg]
    rw [digit_not_ws ha]
    simp

theorem strptime_assembled (dStr yStr : List Char) (m d y : Nat)
    (hd : parseDayTok dStr = some (d, []))
    (hm1 : 1 ≤ m) (hm2 : m ≤ 12)
    (hy : parseYear4 yStr = some (y, []))
    (hy1 : 1 ≤ y) (hy2 : y ≤ 9999) (hd1 : 1 ≤ d)
    (hd2 : d ≤ daysInMonth m y) :
    strptimeDMY (dStr ++ (deSp ++ (monthNum m ++ (deSp ++ yStr)))) =
      some (y, m, d) := by
  obtain ⟨hdw, hpm⟩ := parseMonth_after m hm1 hm2
    (' ' :: ('d' :: 'e' :: (' ' :: yStr)))
  have hyw := parseYear4_dropWhile yStr y hy
  show strptimeDMY (dStr ++ ' ' :: ('d' :: 'e' :: ' ' ::
    (monthNum m ++ (' ' :: ('d' :: 'e' :: (' ' :: yStr)))))) = _
  unfold strptimeDMY
  rw [parseDayTok_append dStr _ d hd]
  simp only [Option.some_bind, wsSkip, litDE, List.dropWhile_cons,
    show isWsC ' ' = true from rfl, show isWsC 'd' = false from rfl,
    if_true, Bool.false_eq_true, if_false]
  rw [hdw, hpm]
  simp only [Option.some_bind, wsSkip, litDE, List.dropWhile_cons,
    show isWsC ' ' = true from rfl, show isWsC 'd' = false from rfl,
    if_true, Bool.false_eq_true, if_false]
  rw [hyw, hy]
  simp only [Option.some_bind, List.isEmpty_nil, if_true]
  rw [if_pos ⟨hy1, hy2, hm1, hm2, hd1, hd2⟩]

theorem dateDigits_mkRaw (dow dStr yStr : List Char) (m d y : Nat)
    (hdow0 : dow ≠ []) (hdow : ∀ c ∈ dow, isWsC c = false)
    (hd : parseDayTok dStr = some (d, []))
    (hdD : ∀ c ∈ dStr, isDigitC c = true)
    (hm1 : 1 ≤ m) (hm2 : m ≤ 12)
    (hy : parseYear4 yStr = some (y, []))
    (hyD : ∀ c ∈ yStr, isDigitC c = true)
    (hy1 : 1 ≤ y) (hy2 : y ≤ 9999) (hd1 : 1 ≤ d)
    (hd2 : d ≤ daysInMonth m y) :
    dateDigits (mkRawDate dow dStr (monthName m) yStr) = some (y, m, d) := by
  have hdws : ∀ c ∈ dStr, isWsC c = false :=
    fun c hc => digit_not_ws (hdD c hc)
  have hyws : ∀ c ∈ yStr, isWsC c = false :=
    fun c hc => digit_not_ws (hyD c hc)
  have hnws : ∀ c ∈ monthName m, isWsC c = false :=
    fun c hc => alpha_not_ws (monthName_alpha m hm1 hm2 c hc)
  have hd0 : dStr ≠ [] := by
    intro he; rw [he] at hd; simp [parseDayTok] at hd
  have hy0 : yStr ≠ [] := by
    intro he; rw [he] at hy; simp [parseYear4] at hy
  rw [dateDigits,
    stripCRLF_mkRaw dow dStr (monthName m) yStr hdow hdws hnws hyws,
    dropDow_mkRaw dow dStr (monthName m) yStr hdow0 hdow hd0 hdws
      (monthName_ne_nil m hm1 hm2) hnws hy0 hyws,
    monthSubst_mk dStr yStr m hm1 hm2 hdD hyD]
  exact strptime_assembled dStr yStr m d y hd hm1 hm2 hy hy1 hy2 hd1 hd2

/-- Claim C6: for every raw date string of the form
dow day de month-name de year with a valid Spanish month name and in-range
day and year (day and four-digit year tokens shaped as the strptime
directives accept them, the day within the month length and the year with
a nonzero leading digit), both get_date variants return exactly the
zero-padded YYYY-MM-DD rendering of the parsed numeric values, matching
manual computation: the day-of-week token is dropped, the textual
substitution of all twelve month names rewrites only the month name, and
the result parses against day de month de year. -/
theorem claim_C6_date_normalizer :
    ∀ (dow dStr yStr : List Char) (m d y : Nat),
      dow ≠ [] → (∀ c ∈ dow, isWsC c = false) →
      parseDayTok dStr = some (d, []) →
      (∀ c ∈ dStr, isDigitC c = true) →
      1 ≤ m → m ≤ 12 →
      parseYear4 yStr = some (y, []) →
      (∀ c ∈ yStr, isDigitC c = true) →
      1000 ≤ y → y ≤ 9999 → 1 ≤ d → d ≤ daysInMonth m y →
      Collect.get_date (mkTimeDoc (mkRawDate dow dStr (monthName m) yStr)) =
        .ok (some (fmtISO y m d)) ∧
      Monitor.get_date (mkTimeDoc (mkRawDate dow dStr (monthName m) yStr)) =
        .ok (some (fmtISO y m d)) := by
  intro dow dStr yStr m d y h1 h2 h3 h4 h5 h6 h7 h8 h9 h10 h11 h12
  have hcore := dateDigits_mkRaw dow dStr yStr m d y h1 h2 h3 h4 h5 h6 h7
    h8 (by omega) h10 h11 h12
  have hfind : findTag "time"
      (mkTimeDoc (mkRawDate dow dStr (monthName m) yStr)) =
      some (.elem "time" [] (nodesOf
        [.text (String.mk (mkRawDate dow dStr (monthName m) yStr))])) := rfl
  have htext : textOf (HNode.elem "time" [] (nodesOf
      [.text (String.mk (mkRawDate dow dStr (monthName m) yStr))])) =
      mkRawDate dow dStr (monthName m) yStr := by
    simp [textOf, textL, nodesOf]
  constructor
  · rw [Collect.get_date, hfind]
    simp only []
    rw [htext, hcore]
  · rw [Monitor.get_date, hfind]
    simp only []
    rw [htext, hcore]

/-- Claim C6 witness: the example of the specification,
lunes 13 de febrero de 2025, normalizes to 2025-02-13 under both
variants. -/
theorem claim_C6_date_normalizer_witness :
    Collect.get_date (mkTimeDoc (mkRawDate "lunes".toList "13".toList
      (monthName 2) "2025".toList)) = .ok (some (fmtISO 2025 2 13)) ∧
    Monitor.get_date (mkTimeDoc (mkRawDate "lunes".toList "13".toList
      (monthName 2) "2025".toList)) = .ok (some (fmtISO 2025 2 13)) ∧
    mkRawDate "lunes".toList "13".toList (monthName 2) "2025".toList =
      "lunes 13 de febrero de 2025".toList ∧
    fmtISO 2025 2 13 = "2025-02-13".toList := by
  have h := claim_C6_date_normalizer "lunes".toList "13".toList
    "2025".toList 2 13 2025 (by decide) (by decide) (by decide) (by decide)
    (by decide) (by decide) (by decide) (by decide) (by decide) (by decide)
    (by decide) (by decide)
  exact ⟨h.1, h.2, by decide, by decide⟩

